import Mathlib

/-!
# CommonOperatorReducer (src/compiler/common-operator-reducer.cc)

A shallow embedding of the reducer over an identity-keyed graph: a node is
named by a handle, the graph maps every handle to its operator and ordered
operand list, and the rule procedures are functions from a graph to an
outcome (reduction, graph afterwards, revisit requests issued).  A read or
write of an operand slot that the node does not have is undefined in the
source and is the failure value of the embedding.  The DCHECKs of the source
are debug-only assertions and take no part in what the functions compute; the
conditions they state are hypotheses of the theorems that need them.
-/

namespace CommonOperatorReducer

/-- Operator tags read by the reducer through opcode(); every other tag of the
IR is kOther with its number. -/
inductive IrOpcode
  | kEffectPhi | kPhi | kSelect | kMerge | kLoop | kBranch | kIfTrue | kIfFalse
  | kHeapConstant | kFloat32Constant | kFloat64Constant
  | kFloat32LessThan | kFloat64LessThan | kFloat32Sub | kFloat64Sub
  | kFloat32Abs | kFloat64Abs | kFloat32Min | kFloat64Min
  | kFloat32Max | kFloat64Max
  | kOther (tag : Nat)
  deriving DecidableEq, Repr

/-- Modelled from the spec: the operator of a node, "operator tag + immediate
parameters" (operator.h is not part of the sources).  A float constant carries
the bit pattern of its IEEE-754 value, a constant object carries its boolean
coercion. -/
inductive Operator
  | EffectPhi | Phi | Select | Merge | Loop | Branch | IfTrue | IfFalse
  | HeapConstant (booleanValue : Bool)
  | Float32Constant (bits : Nat)
  | Float64Constant (bits : Nat)
  | Float32LessThan | Float64LessThan | Float32Sub | Float64Sub
  | Float32Abs | Float64Abs | Float32Min | Float64Min
  | Float32Max | Float64Max
  | Other (tag : Nat)
  deriving DecidableEq, Repr

/-- The tag of an operator. -/
def Operator.opcode : Operator → IrOpcode
  | .EffectPhi => .kEffectPhi
  | .Phi => .kPhi
  | .Select => .kSelect
  | .Merge => .kMerge
  | .Loop => .kLoop
  | .Branch => .kBranch
  | .IfTrue => .kIfTrue
  | .IfFalse => .kIfFalse
  | .HeapConstant _ => .kHeapConstant
  | .Float32Constant _ => .kFloat32Constant
  | .Float64Constant _ => .kFloat64Constant
  | .Float32LessThan => .kFloat32LessThan
  | .Float64LessThan => .kFloat64LessThan
  | .Float32Sub => .kFloat32Sub
  | .Float64Sub => .kFloat64Sub
  | .Float32Abs => .kFloat32Abs
  | .Float64Abs => .kFloat64Abs
  | .Float32Min => .kFloat32Min
  | .Float64Min => .kFloat64Min
  | .Float32Max => .kFloat32Max
  | .Float64Max => .kFloat64Max
  | .Other t => .kOther t

/-- A node handle (the Node* of the source); equality of handles is identity
of nodes. -/
abbrev NodeId := Nat

/-- Modelled from the spec: a node is "operator tag + immediate parameters,
ordered list of operand references" (node.h is not part of the sources). -/
structure Node where
  op : Operator
  inputs : List NodeId
  deriving DecidableEq, Repr

instance : Inhabited Node := ⟨⟨.Other 0, []⟩⟩

/-- The graph: every handle denotes a node. -/
abbrev Graph := NodeId → Node

/-- Overwrite the node behind one handle, leaving every other handle alone. -/
def Graph.set (g : Graph) (n : NodeId) (nd : Node) : Graph :=
  fun m => if m = n then nd else g m

/-- A graph given by the list of its first nodes; every further handle is an
operand-less node of an unrelated operator. -/
def Graph.ofList (l : List Node) : Graph := fun m => l.getD m default

/-- Modelled from the spec: "read operator tag" (Node::opcode). -/
def opcode (g : Graph) (n : NodeId) : IrOpcode := (g n).op.opcode

/-- Modelled from the spec: "read operand count" (Node::InputCount, an int). -/
def InputCount (g : Graph) (n : NodeId) : Int := ((g n).inputs.length : Int)

/-- Modelled from the spec: "read operand at index" (Node::InputAt, with an int
index); an index outside the operand list is a failure. -/
def InputAt (g : Graph) (n : NodeId) (i : Int) : Option NodeId :=
  if i < 0 then none else (g n).inputs[i.toNat]?

/-- Modelled from the spec: "replace operator tag" (Node::set_op). -/
def set_op (g : Graph) (n : NodeId) (op : Operator) : Graph :=
  g.set n { g n with op := op }

/-- Modelled from the spec: "overwrite operand at index" (Node::ReplaceInput);
an index outside the operand list is a failure. -/
def ReplaceInput (g : Graph) (n : NodeId) (i : Nat) (a : NodeId) : Option Graph :=
  if i < (g n).inputs.length then
    some (g.set n { g n with inputs := (g n).inputs.set i a })
  else none

/-- Modelled from the spec: "truncate operand count" (Node::TrimInputCount);
asking for more operands than the node has is a failure. -/
def TrimInputCount (g : Graph) (n : NodeId) (k : Nat) : Option Graph :=
  if k ≤ (g n).inputs.length then
    some (g.set n { g n with inputs := (g n).inputs.take k })
  else none

/-- Modelled from the spec: the capability queries "reporting whether the
compilation target has native minimum/maximum support at each floating-point
width" (machine-operator.h is not part of the sources). -/
structure MachineOperatorBuilder where
  HasFloat32Min : Bool
  HasFloat32Max : Bool
  HasFloat64Min : Bool
  HasFloat64Max : Bool
  deriving DecidableEq, Repr

/-- Modelled from the spec: the reduction outcome, "no-change,
replace-with(existing node), or changed(node mutated in place)"
(graph-reducer.h is not part of the sources). -/
inductive Reduction
  | NoChange
  | Replace (n : NodeId)
  | Changed (n : NodeId)
  deriving DecidableEq, Repr

/-- What one rule invocation produces: the reduction, the graph afterwards and
the revisit requests it issued, oldest first. -/
structure Outcome where
  reduction : Reduction
  graph : Graph
  revisits : List NodeId

/-- Modelled from the spec: Float32Matcher::Is(0.0), "is a literal equal to a
given value" (node-matchers.h is not part of the sources): the node is a
Float32Constant whose value compares equal to 0.0, which holds for the bit
patterns of +0.0 and -0.0 only. -/
def Float32Is0 (g : Graph) (n : NodeId) : Bool :=
  match (g n).op with
  | .Float32Constant bits => (bits % 2 ^ 32) % 2 ^ 31 == 0
  | _ => false

/-- Modelled from the spec: Float32Matcher::IsZero, "is the literal zero"
(node-matchers.h is not part of the sources): Is(0.0) with the sign bit
clear. -/
def Float32IsZero (g : Graph) (n : NodeId) : Bool :=
  Float32Is0 g n &&
    (match (g n).op with
     | .Float32Constant bits => (bits % 2 ^ 32) / 2 ^ 31 == 0
     | _ => false)

/-- Modelled from the spec: Float64Matcher::Is(0.0) (node-matchers.h is not
part of the sources). -/
def Float64Is0 (g : Graph) (n : NodeId) : Bool :=
  match (g n).op with
  | .Float64Constant bits => (bits % 2 ^ 64) % 2 ^ 63 == 0
  | _ => false

/-- Modelled from the spec: Float64Matcher::IsZero (node-matchers.h is not part
of the sources). -/
def Float64IsZero (g : Graph) (n : NodeId) : Bool :=
  Float64Is0 g n &&
    (match (g n).op with
     | .Float64Constant bits => (bits % 2 ^ 64) / 2 ^ 63 == 0
     | _ => false)

/-- The decomposed operands of a binary node. -/
structure BinopMatcher where
  left : NodeId
  right : NodeId
  deriving DecidableEq, Repr

/-- Modelled from the spec: Float32BinopMatcher / Float64BinopMatcher, "for a
binary node, its decomposed left/right operands" (node-matchers.h is not part
of the sources): the constructor reads operands 0 and 1; the operators matched
here (LessThan, Sub) are not commutative, so the operands are never swapped. -/
def BinopMatcher.mk2 (g : Graph) (n : NodeId) : Option BinopMatcher := do
  let l ← InputAt g n 0
  let r ← InputAt g n 1
  some ⟨l, r⟩

/-- Modelled from the spec: HeapObjectMatcher, then
Value().handle()->BooleanValue(), "for a constant-object node, its boolean
coercion" (node-matchers.h is not part of the sources). -/
def HeapObjectBooleanValue (g : Graph) (n : NodeId) : Option Bool :=
  match (g n).op with
  | .HeapConstant b => some b
  | _ => none

/-- Change(node, op, a), lines 197-203. -/
def Change1 (g : Graph) (node : NodeId) (op : Operator) (a : NodeId) :
    Option (Reduction × Graph) := do
  let g1 := set_op g node op
  let g2 ← ReplaceInput g1 node 0 a
  let g3 ← TrimInputCount g2 node 1
  some (.Changed node, g3)

/-- Change(node, op, a, b), lines 206-213. -/
def Change2 (g : Graph) (node : NodeId) (op : Operator) (a b : NodeId) :
    Option (Reduction × Graph) := do
  let g1 := set_op g node op
  let g2 ← ReplaceInput g1 node 0 a
  let g3 ← ReplaceInput g2 node 1 b
  let g4 ← TrimInputCount g3 node 2
  some (.Changed node, g4)

/-- The loop of lines 43-51, repeated verbatim at lines 128-136:
for (i = ...; i < input_count; ++i), with remaining its number of iterations
still to run.  The result is false when the loop leaves through
return NoChange() and true when it runs to its end. -/
def scanInputs (g : Graph) (node value : NodeId) : Nat → Int → Option Bool
  | 0, _ => some true
  | remaining + 1, i => do
    let input ← InputAt g node i
    if input = node then
      scanInputs g node value remaining (i + 1)
    else if input ≠ value then
      some false
    else
      scanInputs g node value remaining (i + 1)

/-- ReduceEffectPhi, lines 34-55. -/
def ReduceEffectPhi (g : Graph) (node : NodeId) : Option Outcome := do
  let input_count : Int := InputCount g node - 1
  let merge ← InputAt g node input_count
  let effect ← InputAt g node 0
  let all ← scanInputs g node effect (input_count - 1).toNat 1
  if all then
    some ⟨.Replace effect, g, [merge]⟩
  else
    some ⟨.NoChange, g, []⟩

/-- The tail of ReducePhi, lines 126-139. -/
def ReducePhiGeneric (g : Graph) (node : NodeId) (input_count : Int)
    (merge : NodeId) : Option Outcome := do
  let value ← InputAt g node 0
  let all ← scanInputs g node value (input_count - 1).toNat 1
  if all then
    some ⟨.Replace value, g, [merge]⟩
  else
    some ⟨.NoChange, g, []⟩

/-- The rewrite of a Phi after Revisit(merge): the outcome of a Change. -/
def revisitThen (merge : NodeId) (c : Option (Reduction × Graph)) : Option Outcome :=
  c.map fun rg => ⟨rg.1, rg.2, [merge]⟩

/-- The absolute-value test of lines 81-84, repeated at lines 156-159: the
outer condition and, inside it, the condition on the matcher of vfalse. -/
def Float32AbsMatch (g : Graph) (mcond : BinopMatcher) (vtrue vfalse : NodeId) :
    Option Bool :=
  if Float32Is0 g mcond.left ∧ mcond.right = vtrue ∧ opcode g vfalse = .kFloat32Sub then do
    let mvfalse ← BinopMatcher.mk2 g vfalse
    some (Float32IsZero g mvfalse.left && decide (mvfalse.right = vtrue))
  else some false

/-- The absolute-value test of lines 103-106, repeated at lines 174-177. -/
def Float64AbsMatch (g : Graph) (mcond : BinopMatcher) (vtrue vfalse : NodeId) :
    Option Bool :=
  if Float64Is0 g mcond.left ∧ mcond.right = vtrue ∧ opcode g vfalse = .kFloat64Sub then do
    let mvfalse ← BinopMatcher.mk2 g vfalse
    some (Float64IsZero g mvfalse.left && decide (mvfalse.right = vtrue))
  else some false

/-- ReducePhi, lines 79-100: the condition is a Float32LessThan.  The result
none means that no return statement was reached and control continues at
line 126. -/
def ReducePhiFloat32 (M : MachineOperatorBuilder) (g : Graph) (node merge : NodeId)
    (cond vtrue vfalse : NodeId) : Option (Option Outcome) := do
  let mcond ← BinopMatcher.mk2 g cond
  let isAbs ← Float32AbsMatch g mcond vtrue vfalse
  if isAbs then
    (revisitThen merge (Change1 g node .Float32Abs vtrue)).map some
  else if mcond.left = vtrue ∧ mcond.right = vfalse ∧ M.HasFloat32Min then
    (revisitThen merge (Change2 g node .Float32Min vtrue vfalse)).map some
  else if mcond.left = vfalse ∧ mcond.right = vtrue ∧ M.HasFloat32Max then
    (revisitThen merge (Change2 g node .Float32Max vtrue vfalse)).map some
  else some none

/-- ReducePhi, lines 101-123: the condition is a Float64LessThan. -/
def ReducePhiFloat64 (M : MachineOperatorBuilder) (g : Graph) (node merge : NodeId)
    (cond vtrue vfalse : NodeId) : Option (Option Outcome) := do
  let mcond ← BinopMatcher.mk2 g cond
  let isAbs ← Float64AbsMatch g mcond vtrue vfalse
  if isAbs then
    (revisitThen merge (Change1 g node .Float64Abs vtrue)).map some
  else if mcond.left = vtrue ∧ mcond.right = vfalse ∧ M.HasFloat64Min then
    (revisitThen merge (Change2 g node .Float64Min vtrue vfalse)).map some
  else if mcond.left = vfalse ∧ mcond.right = vtrue ∧ M.HasFloat64Max then
    (revisitThen merge (Change2 g node .Float64Max vtrue vfalse)).map some
  else some none

/-- ReducePhi, lines 66-124: the body of if (input_count == 2).  The result
none means that no return statement was reached and control continues at
line 126. -/
def ReducePhiIdioms (M : MachineOperatorBuilder) (g : Graph) (node merge : NodeId) :
    Option (Option Outcome) := do
  let vtrue0 ← InputAt g node 0
  let vfalse0 ← InputAt g node 1
  let if_true0 ← InputAt g merge 0
  let if_false0 ← InputAt g merge 1
  let swap : Bool := opcode g if_true0 != .kIfTrue
  let if_true := if swap then if_false0 else if_true0
  let if_false := if swap then if_true0 else if_false0
  let vtrue := if swap then vfalse0 else vtrue0
  let vfalse := if swap then vtrue0 else vfalse0
  if opcode g if_true = .kIfTrue ∧ opcode g if_false = .kIfFalse then do
    let b1 ← InputAt g if_true 0
    let b2 ← InputAt g if_false 0
    if b1 = b2 then do
      let branch ← InputAt g if_true 0
      let cond ← InputAt g branch 0
      if opcode g cond = .kFloat32LessThan then
        ReducePhiFloat32 M g node merge cond vtrue vfalse
      else if opcode g cond = .kFloat64LessThan then
        ReducePhiFloat64 M g node merge cond vtrue vfalse
      else some none
    else some none
  else some none

/-- ReducePhi, lines 58-140. -/
def ReducePhi (M : MachineOperatorBuilder) (g : Graph) (node : NodeId) :
    Option Outcome := do
  let input_count : Int := InputCount g node - 1
  let merge ← InputAt g node input_count
  let early ← (if input_count = 2 then ReducePhiIdioms M g node merge else some none)
  match early with
  | some out => some out
  | none => ReducePhiGeneric g node input_count merge

/-- The outcome of a Select rewrite: a Change, no revisit request. -/
def noRevisit (c : Option (Reduction × Graph)) : Option Outcome :=
  c.map fun rg => ⟨rg.1, rg.2, []⟩

/-- ReduceSelect, lines 143-194. -/
def ReduceSelect (M : MachineOperatorBuilder) (g : Graph) (node : NodeId) :
    Option Outcome := do
  let cond ← InputAt g node 0
  let vtrue ← InputAt g node 1
  let vfalse ← InputAt g node 2
  if vtrue = vfalse then some ⟨.Replace vtrue, g, []⟩
  else if opcode g cond = .kHeapConstant then do
    let b ← HeapObjectBooleanValue g cond
    some ⟨.Replace (if b then vtrue else vfalse), g, []⟩
  else if opcode g cond = .kFloat32LessThan then do
    let mcond ← BinopMatcher.mk2 g cond
    let isAbs ← Float32AbsMatch g mcond vtrue vfalse
    if isAbs then
      noRevisit (Change1 g node .Float32Abs vtrue)
    else if mcond.left = vtrue ∧ mcond.right = vfalse ∧ M.HasFloat32Min then
      noRevisit (Change2 g node .Float32Min vtrue vfalse)
    else if mcond.left = vfalse ∧ mcond.right = vtrue ∧ M.HasFloat32Max then
      noRevisit (Change2 g node .Float32Max vtrue vfalse)
    else some ⟨.NoChange, g, []⟩
  else if opcode g cond = .kFloat64LessThan then do
    let mcond ← BinopMatcher.mk2 g cond
    let isAbs ← Float64AbsMatch g mcond vtrue vfalse
    if isAbs then
      noRevisit (Change1 g node .Float64Abs vtrue)
    else if mcond.left = vtrue ∧ mcond.right = vfalse ∧ M.HasFloat64Min then
      noRevisit (Change2 g node .Float64Min vtrue vfalse)
    else if mcond.left = vfalse ∧ mcond.right = vtrue ∧ M.HasFloat64Max then
      noRevisit (Change2 g node .Float64Max vtrue vfalse)
    else some ⟨.NoChange, g, []⟩
  else some ⟨.NoChange, g, []⟩

/-- Reduce, lines 19-31. -/
def Reduce (M : MachineOperatorBuilder) (g : Graph) (node : NodeId) :
    Option Outcome :=
  match opcode g node with
  | .kEffectPhi => ReduceEffectPhi g node
  | .kPhi => ReducePhi M g node
  | .kSelect => ReduceSelect M g node
  | _ => some ⟨.NoChange, g, []⟩

/-! ## Vocabulary of the properties -/

/-- The two floating-point widths the idioms exist at. -/
inductive Width
  | Float32
  | Float64
  deriving DecidableEq, Repr

/-- The ordered-less-than operator at a width. -/
def Width.LessThan : Width → Operator
  | .Float32 => .Float32LessThan
  | .Float64 => .Float64LessThan

/-- The subtraction operator at a width. -/
def Width.Sub : Width → Operator
  | .Float32 => .Float32Sub
  | .Float64 => .Float64Sub

/-- The absolute-value operator at a width. -/
def Width.Abs : Width → Operator
  | .Float32 => .Float32Abs
  | .Float64 => .Float64Abs

/-- The minimum operator at a width. -/
def Width.Min : Width → Operator
  | .Float32 => .Float32Min
  | .Float64 => .Float64Min

/-- The maximum operator at a width. -/
def Width.Max : Width → Operator
  | .Float32 => .Float32Max
  | .Float64 => .Float64Max

/-- The matcher predicate Is(0.0) at a width. -/
def Width.Is0 : Width → Graph → NodeId → Bool
  | .Float32 => Float32Is0
  | .Float64 => Float64Is0

/-- The matcher predicate IsZero at a width. -/
def Width.IsZero : Width → Graph → NodeId → Bool
  | .Float32 => Float32IsZero
  | .Float64 => Float64IsZero

/-- The capability query HasFloat32Min / HasFloat64Min. -/
def MachineOperatorBuilder.HasMin (M : MachineOperatorBuilder) : Width → Bool
  | .Float32 => M.HasFloat32Min
  | .Float64 => M.HasFloat64Min

/-- The capability query HasFloat32Max / HasFloat64Max. -/
def MachineOperatorBuilder.HasMax (M : MachineOperatorBuilder) : Width → Bool
  | .Float32 => M.HasFloat32Max
  | .Float64 => M.HasFloat64Max

/-- Modelled from the spec: the operand counts of the operators the reducer
decomposes, "contracts assumed guaranteed by upstream IR construction"
(common-operator.cc and machine-operator.cc are not part of the sources): an
IfTrue or IfFalse has one operand, which is a Branch; a Branch has a condition
and a control operand; LessThan and Sub are binary. -/
def NodeOk (g : Graph) (m : NodeId) : Bool :=
  match opcode g m with
  | .kIfTrue | .kIfFalse =>
    (match (g m).inputs with
     | [b] => opcode g b == .kBranch
     | _ => false)
  | .kBranch => (g m).inputs.length == 2
  | .kFloat32LessThan | .kFloat64LessThan | .kFloat32Sub | .kFloat64Sub =>
    (g m).inputs.length == 2
  | _ => true

/-- Every node of the graph has the operands of its operator. -/
def WellFormed (g : Graph) : Prop := ∀ m, NodeOk g m = true

/-- The absolute-value shape of section 4.2 step 3 at a width: left is a
constant matching Is(0.0), right is v_true, and v_false is a subtraction whose
left operand matches IsZero and whose right operand is v_true. -/
def AbsShape (w : Width) (g : Graph) (left right vtrue vfalse : NodeId) : Bool :=
  w.Is0 g left && decide (right = vtrue) && decide ((g vfalse).op = w.Sub) &&
    (match (g vfalse).inputs with
     | z :: y :: _ => w.IsZero g z && decide (y = vtrue)
     | _ => false)

/-- The minimum shape of section 4.2 step 4, capability included. -/
def MinShape (M : MachineOperatorBuilder) (w : Width) (left right vtrue vfalse : NodeId) :
    Bool :=
  decide (left = vtrue ∧ right = vfalse ∧ M.HasMin w = true)

/-- The maximum shape of section 4.2 step 5, capability included. -/
def MaxShape (M : MachineOperatorBuilder) (w : Width) (left right vtrue vfalse : NodeId) :
    Bool :=
  decide (left = vfalse ∧ right = vtrue ∧ M.HasMax w = true)

/-- Section 4.2 steps 3-5 in their priority order: the operator and operand
list the node is rewritten to, if any. -/
def idiom (M : MachineOperatorBuilder) (w : Width) (g : Graph)
    (left right vtrue vfalse : NodeId) : Option Node :=
  if AbsShape w g left right vtrue vfalse then some ⟨w.Abs, [vtrue]⟩
  else if MinShape M w left right vtrue vfalse then some ⟨w.Min, [vtrue, vfalse]⟩
  else if MaxShape M w left right vtrue vfalse then some ⟨w.Max, [vtrue, vfalse]⟩
  else none

/-- The idiom checks applied to a condition node and the two arms: nothing
unless the condition is a LessThan at one of the two widths. -/
def condIdiom (M : MachineOperatorBuilder) (g : Graph) (cond vtrue vfalse : NodeId) :
    Option Node :=
  match (g cond).op, (g cond).inputs with
  | .Float32LessThan, l :: r :: _ => idiom M .Float32 g l r vtrue vfalse
  | .Float64LessThan, l :: r :: _ => idiom M .Float64 g l r vtrue vfalse
  | _, _ => none

/-- What an outcome shows of one node: the reduction, that node afterwards,
and the revisit requests. -/
def Outcome.view (out : Outcome) (n : NodeId) : Reduction × Node × List NodeId :=
  (out.reduction, out.graph n, out.revisits)

/-- The outcome of an in-place rewrite of node to nd. -/
def rewritten (g : Graph) (node : NodeId) (nd : Node) (revisits : List NodeId) : Outcome :=
  ⟨.Changed node, g.set node nd, revisits⟩

/-- An idiom node: W-Abs over one operand, W-Min or W-Max over two. -/
def isIdiomNode (nd : Node) : Bool :=
  match nd.op, nd.inputs with
  | .Float32Abs, [_] => true
  | .Float64Abs, [_] => true
  | .Float32Min, [_, _] => true
  | .Float64Min, [_, _] => true
  | .Float32Max, [_, _] => true
  | .Float64Max, [_, _] => true
  | _, _ => false

/-- IrOpcode::IsMergeOpcode, as used by the DCHECKs of lines 39 and 63. -/
def IsMergeOpcode : IrOpcode → Bool
  | .kMerge => true
  | .kLoop => true
  | _ => false

/-- Modelled from the spec: the contracts on the node handed to the reducer,
"operand count - 1 always equals the Merge's incoming-edge count", "a
self-referential operand is legal only when its Merge is a Loop", "a
ternary-select always has exactly 3 operands"; for a Phi or EffectPhi these are
the DCHECKs of lines 35-42 and 47 (59-64, 127 and 132): at least one value
operand, the last operand a Merge or Loop with as many operands as the node has
value operands, operand 0 not the node itself, and a later operand the node
itself only under a Loop. -/
def TargetOk (g : Graph) (n : NodeId) : Bool :=
  match opcode g n with
  | .kEffectPhi | .kPhi =>
    (match (g n).inputs.getLast?, (g n).inputs.head? with
     | some merge, some v0 =>
       decide (2 ≤ (g n).inputs.length) && IsMergeOpcode (opcode g merge) &&
         decide ((g merge).inputs.length + 1 = (g n).inputs.length) &&
         decide (v0 ≠ n) &&
         (((g n).inputs.dropLast.all fun v => decide (v ≠ n)) ||
           decide (opcode g merge = .kLoop))
     | _, _ => false)
  | .kSelect => decide ((g n).inputs.length = 3)
  | _ => true

/-- The common Branch condition of a true projection and a false
projection, if they are projections of one Branch node. -/
def branchCond (g : Graph) (t f : NodeId) : Option NodeId :=
  match (g t).inputs, (g f).inputs with
  | b1 :: _, b2 :: _ =>
    if b1 = b2 ∧ (g b1).op = .Branch then (g b1).inputs.head? else none
  | _, _ => none

/-- The condition of the diamond a merge closes: the merge has two
predecessors that are, in either order, an IfTrue and an IfFalse whose operand 0
is the same Branch node; the result is the condition of that Branch. -/
def diamondCond (g : Graph) (merge : NodeId) : Option NodeId :=
  match (g merge).inputs with
  | [p, q] =>
    if (g p).op = .IfTrue ∧ (g q).op = .IfFalse then branchCond g p q
    else if (g q).op = .IfTrue ∧ (g p).op = .IfFalse then branchCond g q p
    else none
  | _ => none

/-- Idiom detection is applicable to a Phi: it has two value operands and its
merge closes a diamond whose condition is a Float32LessThan or a
Float64LessThan. -/
def idiomApplicable (g : Graph) (n merge : NodeId) : Bool :=
  decide ((g n).inputs.length = 3) &&
    (match diamondCond g merge with
     | some cond =>
       decide ((g cond).op = .Float32LessThan) || decide ((g cond).op = .Float64LessThan)
     | none => false)

/-- Section 4.2 steps 1-5 on a Phi and its merge: when the Phi has exactly two
value operands [a, c] and the merge closes a diamond (its two predecessors are,
in either order, the IfTrue and the IfFalse of one Branch), the idiom of the
condition of that Branch over the value operands aligned with the projections,
vtrue the operand at the position of the IfTrue and vfalse the operand at the
position of the IfFalse; nothing in every other case. -/
def phiIdiom (M : MachineOperatorBuilder) (g : Graph) (n merge : NodeId) : Option Node :=
  match (g n).inputs, (g merge).inputs with
  | [a, c, _], [p, q] =>
    if (g p).op = .IfTrue ∧ (g q).op = .IfFalse then
      (branchCond g p q).bind fun cond => condIdiom M g cond a c
    else if (g q).op = .IfTrue ∧ (g p).op = .IfFalse then
      (branchCond g q p).bind fun cond => condIdiom M g cond c a
    else none
  | _, _ => none

/-! ## The variant that tests the absolute-value shape last -/

/-- A variant of lines 79-100 (not in the source): the minimum and maximum
tests first, the absolute-value test after them. -/
def ReducePhiFloat32AbsLast (M : MachineOperatorBuilder) (g : Graph) (node merge : NodeId)
    (cond vtrue vfalse : NodeId) : Option (Option Outcome) := do
  let mcond ← BinopMatcher.mk2 g cond
  if mcond.left = vtrue ∧ mcond.right = vfalse ∧ M.HasFloat32Min then
    (revisitThen merge (Change2 g node .Float32Min vtrue vfalse)).map some
  else if mcond.left = vfalse ∧ mcond.right = vtrue ∧ M.HasFloat32Max then
    (revisitThen merge (Change2 g node .Float32Max vtrue vfalse)).map some
  else do
    let isAbs ← Float32AbsMatch g mcond vtrue vfalse
    if isAbs then
      (revisitThen merge (Change1 g node .Float32Abs vtrue)).map some
    else some none

/-- A variant of lines 101-123 (not in the source): the minimum and maximum
tests first, the absolute-value test after them. -/
def ReducePhiFloat64AbsLast (M : MachineOperatorBuilder) (g : Graph) (node merge : NodeId)
    (cond vtrue vfalse : NodeId) : Option (Option Outcome) := do
  let mcond ← BinopMatcher.mk2 g cond
  if mcond.left = vtrue ∧ mcond.right = vfalse ∧ M.HasFloat64Min then
    (revisitThen merge (Change2 g node .Float64Min vtrue vfalse)).map some
  else if mcond.left = vfalse ∧ mcond.right = vtrue ∧ M.HasFloat64Max then
    (revisitThen merge (Change2 g node .Float64Max vtrue vfalse)).map some
  else do
    let isAbs ← Float64AbsMatch g mcond vtrue vfalse
    if isAbs then
      (revisitThen merge (Change1 g node .Float64Abs vtrue)).map some
    else some none

/-- The variant of lines 66-124: ReducePhiIdioms with the two reordered
sections. -/
def ReducePhiIdiomsAbsLast (M : MachineOperatorBuilder) (g : Graph) (node merge : NodeId) :
    Option (Option Outcome) := do
  let vtrue0 ← InputAt g node 0
  let vfalse0 ← InputAt g node 1
  let if_true0 ← InputAt g merge 0
  let if_false0 ← InputAt g merge 1
  let swap : Bool := opcode g if_true0 != .kIfTrue
  let if_true := if swap then if_false0 else if_true0
  let if_false := if swap then if_true0 else if_false0
  let vtrue := if swap then vfalse0 else vtrue0
  let vfalse := if swap then vtrue0 else vfalse0
  if opcode g if_true = .kIfTrue ∧ opcode g if_false = .kIfFalse then do
    let b1 ← InputAt g if_true 0
    let b2 ← InputAt g if_false 0
    if b1 = b2 then do
      let branch ← InputAt g if_true 0
      let cond ← InputAt g branch 0
      if opcode g cond = .kFloat32LessThan then
        ReducePhiFloat32AbsLast M g node merge cond vtrue vfalse
      else if opcode g cond = .kFloat64LessThan then
        ReducePhiFloat64AbsLast M g node merge cond vtrue vfalse
      else some none
    else some none
  else some none

/-- The variant of ReducePhi that tests the absolute-value shape last. -/
def ReducePhiAbsLast (M : MachineOperatorBuilder) (g : Graph) (node : NodeId) :
    Option Outcome := do
  let input_count : Int := InputCount g node - 1
  let merge ← InputAt g node input_count
  let early ←
    (if input_count = 2 then ReducePhiIdiomsAbsLast M g node merge else some none)
  match early with
  | some out => some out
  | none => ReducePhiGeneric g node input_count merge

/-- The variant of lines 154-171: the Float32LessThan case of ReduceSelect
with the absolute-value test last. -/
def ReduceSelectFloat32AbsLast (M : MachineOperatorBuilder) (g : Graph)
    (node cond vtrue vfalse : NodeId) : Option Outcome := do
  let mcond ← BinopMatcher.mk2 g cond
  if mcond.left = vtrue ∧ mcond.right = vfalse ∧ M.HasFloat32Min then
    noRevisit (Change2 g node .Float32Min vtrue vfalse)
  else if mcond.left = vfalse ∧ mcond.right = vtrue ∧ M.HasFloat32Max then
    noRevisit (Change2 g node .Float32Max vtrue vfalse)
  else do
    let isAbs ← Float32AbsMatch g mcond vtrue vfalse
    if isAbs then
      noRevisit (Change1 g node .Float32Abs vtrue)
    else some ⟨.NoChange, g, []⟩

/-- The variant of lines 172-189: the Float64LessThan case of ReduceSelect
with the absolute-value test last. -/
def ReduceSelectFloat64AbsLast (M : MachineOperatorBuilder) (g : Graph)
    (node cond vtrue vfalse : NodeId) : Option Outcome := do
  let mcond ← BinopMatcher.mk2 g cond
  if mcond.left = vtrue ∧ mcond.right = vfalse ∧ M.HasFloat64Min then
    noRevisit (Change2 g node .Float64Min vtrue vfalse)
  else if mcond.left = vfalse ∧ mcond.right = vtrue ∧ M.HasFloat64Max then
    noRevisit (Change2 g node .Float64Max vtrue vfalse)
  else do
    let isAbs ← Float64AbsMatch g mcond vtrue vfalse
    if isAbs then
      noRevisit (Change1 g node .Float64Abs vtrue)
    else some ⟨.NoChange, g, []⟩

/-- The variant of ReduceSelect that tests the absolute-value shape last. -/
def ReduceSelectAbsLast (M : MachineOperatorBuilder) (g : Graph) (node : NodeId) :
    Option Outcome := do
  let cond ← InputAt g node 0
  let vtrue ← InputAt g node 1
  let vfalse ← InputAt g node 2
  if vtrue = vfalse then some ⟨.Replace vtrue, g, []⟩
  else if opcode g cond = .kHeapConstant then do
    let b ← HeapObjectBooleanValue g cond
    some ⟨.Replace (if b then vtrue else vfalse), g, []⟩
  else if opcode g cond = .kFloat32LessThan then
    ReduceSelectFloat32AbsLast M g node cond vtrue vfalse
  else if opcode g cond = .kFloat64LessThan then
    ReduceSelectFloat64AbsLast M g node cond vtrue vfalse
  else some ⟨.NoChange, g, []⟩

/-! ## Example graphs -/

/-- An EffectPhi (node 0) on a three-way Loop (node 2): operands
[e, self, e, loop] with e the node 1. -/
def loopEffectPhi : Graph := Graph.ofList
  [⟨.EffectPhi, [1, 0, 1, 2]⟩, ⟨.Other 7, []⟩, ⟨.Loop, [3, 4, 5]⟩]

/-- An EffectPhi (node 0) on a two-way Merge (node 3) whose effect operands
are the distinct nodes 1 and 2. -/
def divergingEffectPhi : Graph := Graph.ofList
  [⟨.EffectPhi, [1, 2, 3]⟩, ⟨.Other 7, []⟩, ⟨.Other 8, []⟩, ⟨.Merge, [4, 5]⟩]

/-- Every capability present. -/
def allCaps : MachineOperatorBuilder := ⟨true, true, true, true⟩

/-- No capability present. -/
def noCaps : MachineOperatorBuilder := ⟨false, false, false, false⟩

/-- A Phi (node 0) whose two value operands are both the node 1, on the
diamond Merge (node 2) of the Branch (node 5) on Float32LessThan(1, 1)
(node 6). -/
def sameArmsDiamond : Graph := Graph.ofList
  [⟨.Phi, [1, 1, 2]⟩, ⟨.Other 7, []⟩, ⟨.Merge, [3, 4]⟩, ⟨.IfTrue, [5]⟩, ⟨.IfFalse, [5]⟩,
   ⟨.Branch, [6, 7]⟩, ⟨.Float32LessThan, [1, 1]⟩, ⟨.Other 0, []⟩]

/-- The same Phi on a diamond whose condition (node 6) is no comparison. -/
def plainDiamond : Graph := Graph.ofList
  [⟨.Phi, [1, 1, 2]⟩, ⟨.Other 7, []⟩, ⟨.Merge, [3, 4]⟩, ⟨.IfTrue, [5]⟩, ⟨.IfFalse, [5]⟩,
   ⟨.Branch, [6, 7]⟩, ⟨.Other 9, []⟩, ⟨.Other 0, []⟩]

/-- The absolute-value diamond at Float32: the Phi (node 0) selects x (node 1)
on the true edge and Float32Sub(0.0, x) (node 8) on the false edge of the
Branch (node 5) on Float32LessThan(0.0, x) (node 6); node 9 is the constant
+0.0. -/
def absDiamond : Graph := Graph.ofList
  [⟨.Phi, [1, 8, 2]⟩, ⟨.Other 7, []⟩, ⟨.Merge, [3, 4]⟩, ⟨.IfTrue, [5]⟩, ⟨.IfFalse, [5]⟩,
   ⟨.Branch, [6, 7]⟩, ⟨.Float32LessThan, [9, 1]⟩, ⟨.Other 0, []⟩, ⟨.Float32Sub, [9, 1]⟩,
   ⟨.Float32Constant 0, []⟩]

/-- The minimum diamond at Float64: the Phi (node 0) selects x (node 1) on the
true edge and y (node 8) on the false edge of the Branch (node 5) on
Float64LessThan(x, y) (node 6). -/
def minDiamond : Graph := Graph.ofList
  [⟨.Phi, [1, 8, 2]⟩, ⟨.Other 7, []⟩, ⟨.Merge, [3, 4]⟩, ⟨.IfTrue, [5]⟩, ⟨.IfFalse, [5]⟩,
   ⟨.Branch, [6, 7]⟩, ⟨.Float64LessThan, [1, 8]⟩, ⟨.Other 0, []⟩, ⟨.Other 8, []⟩]

/-- The maximum diamond at Float32: the Phi (node 0) selects x (node 1) on the
true edge and y (node 8) on the false edge of the Branch (node 5) on
Float32LessThan(y, x) (node 6). -/
def maxDiamond : Graph := Graph.ofList
  [⟨.Phi, [1, 8, 2]⟩, ⟨.Other 7, []⟩, ⟨.Merge, [3, 4]⟩, ⟨.IfTrue, [5]⟩, ⟨.IfFalse, [5]⟩,
   ⟨.Branch, [6, 7]⟩, ⟨.Float32LessThan, [8, 1]⟩, ⟨.Other 0, []⟩, ⟨.Other 8, []⟩]

/-- Two Phis on the two orderings of one diamond: node 0 is
Phi(a, c, Merge(T, F)) and node 9 is Phi(c, a, Merge(F, T)), with a the node 1,
c the node 8, T and F the projections (nodes 3 and 4) of the Branch (node 5) on
Float32LessThan(a, c) (node 6). -/
def orderPair : Graph := Graph.ofList
  [⟨.Phi, [1, 8, 2]⟩, ⟨.Other 7, []⟩, ⟨.Merge, [3, 4]⟩, ⟨.IfTrue, [5]⟩, ⟨.IfFalse, [5]⟩,
   ⟨.Branch, [6, 7]⟩, ⟨.Float32LessThan, [1, 8]⟩, ⟨.Other 0, []⟩, ⟨.Other 8, []⟩,
   ⟨.Phi, [8, 1, 10]⟩, ⟨.Merge, [4, 3]⟩]

/-- A Select (node 0) with both arms the node 2 and a Float32LessThan
condition (node 1). -/
def sameArmsSelect : Graph := Graph.ofList
  [⟨.Select, [1, 2, 2]⟩, ⟨.Float32LessThan, [2, 2]⟩, ⟨.Other 7, []⟩]

/-- A Select (node 0) on a constant object (node 1) that coerces to false,
with arms 2 and 3; the arms are those of the Float32 minimum idiom. -/
def constantSelect : Graph := Graph.ofList
  [⟨.Select, [1, 2, 3]⟩, ⟨.HeapConstant false, []⟩, ⟨.Other 7, []⟩, ⟨.Other 8, []⟩]

/-- A Select (node 9) and a Phi (node 0) over the same condition and arms:
Select(cond, a, c) and Phi(a, c, Merge(T, F)) with cond the node 6,
Float32LessThan(a, c), a the node 1 and c the node 8. -/
def selectAndPhi : Graph := Graph.ofList
  [⟨.Phi, [1, 8, 2]⟩, ⟨.Other 7, []⟩, ⟨.Merge, [3, 4]⟩, ⟨.IfTrue, [5]⟩, ⟨.IfFalse, [5]⟩,
   ⟨.Branch, [6, 7]⟩, ⟨.Float32LessThan, [1, 8]⟩, ⟨.Other 0, []⟩, ⟨.Other 8, []⟩,
   ⟨.Select, [6, 1, 8]⟩]

/-! ## The mutation primitives -/

theorem Graph.set_same (g : Graph) (n : NodeId) (nd : Node) : g.set n nd n = nd := by
  simp [Graph.set]

theorem Graph.set_other (g : Graph) (n m : NodeId) (nd : Node) (h : m ≠ n) :
    g.set n nd m = g m := by
  simp [Graph.set, h]

theorem Graph.set_set (g : Graph) (n : NodeId) (nd nd2 : Node) :
    (g.set n nd).set n nd2 = g.set n nd2 := by
  funext m
  by_cases h : m = n <;> simp [Graph.set, h]

theorem Change1_eq (g : Graph) (node a : NodeId) (op : Operator)
    (h : 1 ≤ (g node).inputs.length) :
    Change1 g node op a = some (.Changed node, g.set node ⟨op, [a]⟩) := by
  obtain ⟨x, tl, hx⟩ : ∃ x tl, (g node).inputs = x :: tl := by
    cases hi : (g node).inputs with
    | nil => simp [hi] at h
    | cons x tl => exact ⟨x, tl, rfl⟩
  simp [Change1, set_op, ReplaceInput, TrimInputCount, Graph.set_same, Graph.set_set, hx]

theorem Change2_eq (g : Graph) (node a b : NodeId) (op : Operator)
    (h : 2 ≤ (g node).inputs.length) :
    Change2 g node op a b = some (.Changed node, g.set node ⟨op, [a, b]⟩) := by
  obtain ⟨x, y, tl, hx⟩ : ∃ x y tl, (g node).inputs = x :: y :: tl := by
    cases hi : (g node).inputs with
    | nil => simp [hi] at h
    | cons x tl =>
      cases tl with
      | nil => simp [hi] at h
      | cons y tl => exact ⟨x, y, tl, rfl⟩
  simp [Change2, set_op, ReplaceInput, TrimInputCount, Graph.set_same, Graph.set_set, hx]

/-! ## The idiom checks -/

theorem opcode_eq_Float32Sub (g : Graph) (m : NodeId) :
    opcode g m = .kFloat32Sub ↔ (g m).op = .Float32Sub := by
  unfold opcode; cases (g m).op <;> simp [Operator.opcode]

theorem opcode_eq_Float64Sub (g : Graph) (m : NodeId) :
    opcode g m = .kFloat64Sub ↔ (g m).op = .Float64Sub := by
  unfold opcode; cases (g m).op <;> simp [Operator.opcode]

theorem opcode_eq_Float32LessThan (g : Graph) (m : NodeId) :
    opcode g m = .kFloat32LessThan ↔ (g m).op = .Float32LessThan := by
  unfold opcode; cases (g m).op <;> simp [Operator.opcode]

theorem opcode_eq_Float64LessThan (g : Graph) (m : NodeId) :
    opcode g m = .kFloat64LessThan ↔ (g m).op = .Float64LessThan := by
  unfold opcode; cases (g m).op <;> simp [Operator.opcode]

theorem opcode_eq_IfTrue (g : Graph) (m : NodeId) :
    opcode g m = .kIfTrue ↔ (g m).op = .IfTrue := by
  unfold opcode; cases (g m).op <;> simp [Operator.opcode]

theorem opcode_eq_IfFalse (g : Graph) (m : NodeId) :
    opcode g m = .kIfFalse ↔ (g m).op = .IfFalse := by
  unfold opcode; cases (g m).op <;> simp [Operator.opcode]

theorem mk2_eq (g : Graph) (m l r : NodeId) (tl : List NodeId)
    (h : (g m).inputs = l :: r :: tl) : BinopMatcher.mk2 g m = some ⟨l, r⟩ := by
  simp [BinopMatcher.mk2, InputAt, h]

theorem sub_inputs (g : Graph) (m : NodeId) (hok : NodeOk g m = true)
    (hop : (g m).op = .Float32Sub ∨ (g m).op = .Float64Sub) :
    ∃ z y, (g m).inputs = [z, y] := by
  have hlen : (g m).inputs.length = 2 := by
    rcases hop with h | h <;> simpa [NodeOk, opcode, h, Operator.opcode] using hok
  match hi : (g m).inputs, hlen with
  | [z, y], _ => exact ⟨z, y, rfl⟩

theorem lessThan_inputs (g : Graph) (m : NodeId) (hok : NodeOk g m = true)
    (hop : (g m).op = .Float32LessThan ∨ (g m).op = .Float64LessThan) :
    ∃ l r, (g m).inputs = [l, r] := by
  have hlen : (g m).inputs.length = 2 := by
    rcases hop with h | h <;> simpa [NodeOk, opcode, h, Operator.opcode] using hok
  match hi : (g m).inputs, hlen with
  | [l, r], _ => exact ⟨l, r, rfl⟩

theorem Float32AbsMatch_eq (g : Graph) (l r vtrue vfalse : NodeId)
    (hvf : r = vtrue → NodeOk g vfalse = true) :
    Float32AbsMatch g ⟨l, r⟩ vtrue vfalse = some (AbsShape .Float32 g l r vtrue vfalse) := by
  by_cases hsub : (g vfalse).op = .Float32Sub
  · by_cases hr : r = vtrue
    · obtain ⟨z, y, hzy⟩ := sub_inputs g vfalse (hvf hr) (Or.inl hsub)
      by_cases h0 : Float32Is0 g l = true <;>
        simp [Float32AbsMatch, AbsShape, opcode_eq_Float32Sub, hsub,
          mk2_eq g vfalse z y [] hzy, hzy, Width.Is0, Width.IsZero, Width.Sub, h0, hr]
    · simp [Float32AbsMatch, AbsShape, hr]
  · simp [Float32AbsMatch, AbsShape, opcode_eq_Float32Sub, hsub, Width.Sub]

theorem Float64AbsMatch_eq (g : Graph) (l r vtrue vfalse : NodeId)
    (hvf : r = vtrue → NodeOk g vfalse = true) :
    Float64AbsMatch g ⟨l, r⟩ vtrue vfalse = some (AbsShape .Float64 g l r vtrue vfalse) := by
  by_cases hsub : (g vfalse).op = .Float64Sub
  · by_cases hr : r = vtrue
    · obtain ⟨z, y, hzy⟩ := sub_inputs g vfalse (hvf hr) (Or.inr hsub)
      by_cases h0 : Float64Is0 g l = true <;>
        simp [Float64AbsMatch, AbsShape, opcode_eq_Float64Sub, hsub,
          mk2_eq g vfalse z y [] hzy, hzy, Width.Is0, Width.IsZero, Width.Sub, h0, hr]
    · simp [Float64AbsMatch, AbsShape, hr]
  · simp [Float64AbsMatch, AbsShape, opcode_eq_Float64Sub, hsub, Width.Sub]

/-- Lines 79-100 compute the idiom of section 4.2 steps 3-5 at width Float32. -/
theorem ReducePhiFloat32_eq (M : MachineOperatorBuilder) (g : Graph)
    (node merge cond vtrue vfalse l r : NodeId) (tl : List NodeId)
    (hc : (g cond).inputs = l :: r :: tl) (hvf : r = vtrue → NodeOk g vfalse = true)
    (hn : 2 ≤ (g node).inputs.length) :
    ReducePhiFloat32 M g node merge cond vtrue vfalse
      = some ((idiom M .Float32 g l r vtrue vfalse).map
          fun nd => rewritten g node nd [merge]) := by
  have hc1 := Change1_eq g node vtrue .Float32Abs (by omega)
  have hmin := Change2_eq g node vtrue vfalse .Float32Min hn
  have hmax := Change2_eq g node vtrue vfalse .Float32Max hn
  simp only [ReducePhiFloat32, mk2_eq g cond l r tl hc, Float32AbsMatch_eq g l r vtrue vfalse hvf,
    Option.bind_eq_bind, Option.some_bind, hc1, hmin, hmax, revisitThen, idiom, Option.map_some',
    rewritten, MinShape, MaxShape, Width.Abs, Width.Min, Width.Max,
    MachineOperatorBuilder.HasMin, MachineOperatorBuilder.HasMax]
  cases AbsShape .Float32 g l r vtrue vfalse
  · simp only [decide_eq_true_eq, Bool.false_eq_true, if_false]
    split_ifs <;> rfl
  · simp

/-- Lines 101-123 compute the idiom of section 4.2 steps 3-5 at width Float64. -/
theorem ReducePhiFloat64_eq (M : MachineOperatorBuilder) (g : Graph)
    (node merge cond vtrue vfalse l r : NodeId) (tl : List NodeId)
    (hc : (g cond).inputs = l :: r :: tl) (hvf : r = vtrue → NodeOk g vfalse = true)
    (hn : 2 ≤ (g node).inputs.length) :
    ReducePhiFloat64 M g node merge cond vtrue vfalse
      = some ((idiom M .Float64 g l r vtrue vfalse).map
          fun nd => rewritten g node nd [merge]) := by
  have hc1 := Change1_eq g node vtrue .Float64Abs (by omega)
  have hmin := Change2_eq g node vtrue vfalse .Float64Min hn
  have hmax := Change2_eq g node vtrue vfalse .Float64Max hn
  simp only [ReducePhiFloat64, mk2_eq g cond l r tl hc, Float64AbsMatch_eq g l r vtrue vfalse hvf,
    Option.bind_eq_bind, Option.some_bind, hc1, hmin, hmax, revisitThen, idiom, Option.map_some',
    rewritten, MinShape, MaxShape, Width.Abs, Width.Min, Width.Max,
    MachineOperatorBuilder.HasMin, MachineOperatorBuilder.HasMax]
  cases AbsShape .Float64 g l r vtrue vfalse
  · simp only [decide_eq_true_eq, Bool.false_eq_true, if_false]
    split_ifs <;> rfl
  · simp

/-- The dispatch on the opcode of the condition, lines 79-123. -/
theorem ReducePhi_cond_eq (M : MachineOperatorBuilder) (g : Graph)
    (node merge cond vtrue vfalse : NodeId)
    (hcond : NodeOk g cond = true)
    (hvf : (g cond).inputs[1]? = some vtrue → NodeOk g vfalse = true)
    (hn : 2 ≤ (g node).inputs.length) :
    (if opcode g cond = .kFloat32LessThan then
        ReducePhiFloat32 M g node merge cond vtrue vfalse
      else if opcode g cond = .kFloat64LessThan then
        ReducePhiFloat64 M g node merge cond vtrue vfalse
      else some none)
      = some ((condIdiom M g cond vtrue vfalse).map fun nd => rewritten g node nd [merge]) := by
  by_cases h32 : (g cond).op = .Float32LessThan
  · obtain ⟨l, r, hlr⟩ := lessThan_inputs g cond hcond (Or.inl h32)
    rw [if_pos ((opcode_eq_Float32LessThan g cond).mpr h32),
      ReducePhiFloat32_eq M g node merge cond vtrue vfalse l r [] hlr
        (fun h => hvf (by simp [hlr, h])) hn]
    simp [condIdiom, h32, hlr]
  · by_cases h64 : (g cond).op = .Float64LessThan
    · obtain ⟨l, r, hlr⟩ := lessThan_inputs g cond hcond (Or.inr h64)
      rw [if_neg (fun h => h32 ((opcode_eq_Float32LessThan g cond).mp h)),
        if_pos ((opcode_eq_Float64LessThan g cond).mpr h64),
        ReducePhiFloat64_eq M g node merge cond vtrue vfalse l r [] hlr
          (fun h => hvf (by simp [hlr, h])) hn]
      simp [condIdiom, h64, hlr]
    · rw [if_neg (fun h => h32 ((opcode_eq_Float32LessThan g cond).mp h)),
        if_neg (fun h => h64 ((opcode_eq_Float64LessThan g cond).mp h))]
      have : condIdiom M g cond vtrue vfalse = none := by
        unfold condIdiom
        split
        · exact absurd (by assumption) h32
        · exact absurd (by assumption) h64
        · rfl
      simp [this]

/-- Lines 66-124 on a diamond whose merge lists the true projection first:
the idiom checks run on the condition with the value operands as they are. -/
theorem ReducePhiIdioms_diamond (M : MachineOperatorBuilder) (g : Graph)
    (n a c merge t f b cond : NodeId) (tlt tlf tlb : List NodeId)
    (hin : (g n).inputs = [a, c, merge]) (hm : (g merge).inputs = [t, f])
    (ht : (g t).op = .IfTrue) (hti : (g t).inputs = b :: tlt)
    (hf : (g f).op = .IfFalse) (hfi : (g f).inputs = b :: tlf)
    (hb : (g b).inputs = cond :: tlb)
    (hcond : NodeOk g cond = true)
    (hvf : (g cond).inputs[1]? = some a → NodeOk g c = true) :
    ReducePhiIdioms M g n merge
      = some ((condIdiom M g cond a c).map fun nd => rewritten g n nd [merge]) := by
  have hdisp := ReducePhi_cond_eq M g n merge cond a c hcond hvf (by simp [hin])
  have hto : opcode g t = .kIfTrue := (opcode_eq_IfTrue g t).mpr ht
  have hfo : opcode g f = .kIfFalse := (opcode_eq_IfFalse g f).mpr hf
  simp only [ReducePhiIdioms, InputAt, hin, hm]
  simpa [hto, hfo, hti, hfi, hb] using hdisp

/-- Lines 66-124 on a diamond whose merge lists the false projection first:
both pairs are swapped, and the idiom checks run on the condition with the
value operands exchanged. -/
theorem ReducePhiIdioms_diamond_swapped (M : MachineOperatorBuilder) (g : Graph)
    (n a c merge t f b cond : NodeId) (tlt tlf tlb : List NodeId)
    (hin : (g n).inputs = [a, c, merge]) (hm : (g merge).inputs = [f, t])
    (ht : (g t).op = .IfTrue) (hti : (g t).inputs = b :: tlt)
    (hf : (g f).op = .IfFalse) (hfi : (g f).inputs = b :: tlf)
    (hb : (g b).inputs = cond :: tlb)
    (hcond : NodeOk g cond = true)
    (hvf : (g cond).inputs[1]? = some c → NodeOk g a = true) :
    ReducePhiIdioms M g n merge
      = some ((condIdiom M g cond c a).map fun nd => rewritten g n nd [merge]) := by
  have hdisp := ReducePhi_cond_eq M g n merge cond c a hcond hvf (by simp [hin])
  have hto : opcode g t = .kIfTrue := (opcode_eq_IfTrue g t).mpr ht
  have hfo : opcode g f = .kIfFalse := (opcode_eq_IfFalse g f).mpr hf
  have hfn : opcode g f ≠ .kIfTrue := by rw [hfo]; decide
  simp only [ReducePhiIdioms, InputAt, hin, hm]
  simpa [hfn, hto, hfo, hti, hfi, hb] using hdisp

/-! ## The operand scan -/

theorem InputAt_append (g : Graph) (node : NodeId) (pre post : List NodeId) (e : NodeId)
    (h : (g node).inputs = pre ++ e :: post) :
    InputAt g node (pre.length : Int) = some e := by
  have hlt : ¬ ((pre.length : Int) < 0) := by omega
  simp only [InputAt, hlt, if_false, h, Int.toNat_ofNat]
  rw [List.getElem?_append_right (le_refl _)]
  simp

theorem scanInputs_eq (g : Graph) (node value : NodeId) (post : List NodeId) :
    ∀ (rest pre : List NodeId), (g node).inputs = pre ++ rest ++ post →
      scanInputs g node value rest.length (pre.length : Int)
        = some (rest.all fun e => e == node || e == value) := by
  intro rest
  induction rest with
  | nil => intro pre _; simp [scanInputs]
  | cons e r ih =>
    intro pre h
    have hread : InputAt g node (pre.length : Int) = some e :=
      InputAt_append g node pre (r ++ post) e (by simpa using h)
    have hnext := ih (pre ++ [e]) (by simpa using h)
    have hidx : ((pre ++ [e]).length : Int) = (pre.length : Int) + 1 := by simp
    rw [hidx] at hnext
    simp only [List.length_cons, scanInputs, hread, Option.bind_eq_bind, Option.some_bind,
      hnext, List.all_cons]
    by_cases h1 : e = node
    · simp [h1]
    · by_cases h2 : e = value
      · simp [h1, h2]
      · simp [h1, h2]

/-- The scan over the operands 1 .. k-1 of a combination node with operands
v0 :: vs ++ [merge]. -/
theorem scanInputs_operands (g : Graph) (node v0 merge : NodeId) (vs : List NodeId)
    (h : (g node).inputs = v0 :: vs ++ [merge]) :
    scanInputs g node v0 (InputCount g node - 1 - 1).toNat 1
      = some (vs.all fun e => e == node || e == v0) := by
  have := scanInputs_eq g node v0 [merge] vs [v0] (by simpa using h)
  simpa [InputCount, h] using this

theorem InputAt_merge (g : Graph) (node v0 merge : NodeId) (vs : List NodeId)
    (h : (g node).inputs = v0 :: vs ++ [merge]) :
    InputAt g node (InputCount g node - 1) = some merge := by
  have := InputAt_append g node (v0 :: vs) [] merge (by simpa using h)
  simpa [InputCount, h] using this

theorem InputAt_zero (g : Graph) (node v0 : NodeId) (tl : List NodeId)
    (h : (g node).inputs = v0 :: tl) :
    InputAt g node 0 = some v0 := by
  simp [InputAt, h]

/-! ## ReducePhi -/

theorem ReducePhiGeneric_eq (g : Graph) (n v0 merge : NodeId) (vs : List NodeId)
    (hin : (g n).inputs = v0 :: vs ++ [merge]) :
    ReducePhiGeneric g n (InputCount g n - 1) merge
      = some (if (vs.all fun e => e == n || e == v0) = true
          then ⟨.Replace v0, g, [merge]⟩ else ⟨.NoChange, g, []⟩) := by
  have hscan := scanInputs_operands g n v0 merge vs hin
  have hzero := InputAt_zero g n v0 (vs ++ [merge]) (by simpa using hin)
  simp only [ReducePhiGeneric, hzero, hscan, Option.bind_eq_bind, Option.some_bind]
  split <;> rfl

/-- ReducePhi is its idiom detection, attempted on two value operands only,
followed by the generic collapse when the detection returned nothing. -/
theorem ReducePhi_eq (M : MachineOperatorBuilder) (g : Graph) (n v0 merge : NodeId)
    (vs : List NodeId) (hin : (g n).inputs = v0 :: vs ++ [merge]) :
    ReducePhi M g n
      = (if vs.length = 1 then ReducePhiIdioms M g n merge else some none).bind
          fun early =>
            match early with
            | some out => some out
            | none => some (if (vs.all fun e => e == n || e == v0) = true
                then ⟨.Replace v0, g, [merge]⟩ else ⟨.NoChange, g, []⟩) := by
  have hmerge := InputAt_merge g n v0 merge vs hin
  have hgen := ReducePhiGeneric_eq g n v0 merge vs hin
  have hcount : (InputCount g n - 1 = 2) ↔ vs.length = 1 := by
    have hlen : (g n).inputs.length = vs.length + 2 := by simp [hin]
    unfold InputCount
    rw [hlen]
    constructor <;> intro h <;> omega
  simp only [ReducePhi, hmerge, hgen, hcount, Option.bind_eq_bind, Option.some_bind]

theorem proj_inputs (g : Graph) (m : NodeId) (hok : NodeOk g m = true)
    (hop : opcode g m = .kIfTrue ∨ opcode g m = .kIfFalse) :
    ∃ b, (g m).inputs = [b] ∧ opcode g b = .kBranch := by
  unfold NodeOk at hok
  rcases hop with h | h <;> rw [h] at hok <;> simp only at hok <;>
    (split at hok
     · exact ⟨_, by assumption, by simpa using hok⟩
     · exact absurd hok (by simp))

theorem branch_inputs (g : Graph) (b : NodeId) (hok : NodeOk g b = true)
    (hop : opcode g b = .kBranch) :
    ∃ cond ctl, (g b).inputs = [cond, ctl] := by
  have hlen : (g b).inputs.length = 2 := by
    simpa [NodeOk, hop] using hok
  match hi : (g b).inputs, hlen with
  | [c, d], _ => exact ⟨c, d, rfl⟩

/-- On a well-formed graph the idiom detection of a two-valued Phi never
fails: either no return statement is reached, or the node is rewritten in
place to an idiom of the condition over its two value operands in one of the
two orders, with one revisit request for the merge. -/
theorem ReducePhiIdioms_cases (M : MachineOperatorBuilder) (g : Graph)
    (n a c merge p q : NodeId) (hwf : WellFormed g)
    (hin : (g n).inputs = [a, c, merge]) (hm : (g merge).inputs = [p, q]) :
    ReducePhiIdioms M g n merge = some none ∨
      ∃ cond vt vf nd, ((vt = a ∧ vf = c) ∨ (vt = c ∧ vf = a)) ∧
        condIdiom M g cond vt vf = some nd ∧
        ReducePhiIdioms M g n merge = some (some (rewritten g n nd [merge])) := by
  by_cases hp : opcode g p = .kIfTrue
  · by_cases hq : opcode g q = .kIfFalse
    · obtain ⟨b1, hb1, hbr⟩ := proj_inputs g p (hwf p) (Or.inl hp)
      obtain ⟨b2, hb2, _⟩ := proj_inputs g q (hwf q) (Or.inr hq)
      by_cases hbb : b1 = b2
      · subst hbb
        obtain ⟨cond, ctl, hcond⟩ := branch_inputs g b1 (hwf b1) hbr
        have h := ReducePhiIdioms_diamond M g n a c merge p q b1 cond [] [] [ctl] hin hm
          ((opcode_eq_IfTrue g p).mp hp) hb1 ((opcode_eq_IfFalse g q).mp hq) hb2 hcond
          (hwf cond) (fun _ => hwf c)
        cases hci : condIdiom M g cond a c with
        | none => left; simpa [hci] using h
        | some nd =>
          right
          exact ⟨cond, a, c, nd, Or.inl ⟨rfl, rfl⟩, hci, by simpa [hci] using h⟩
      · left
        simp only [ReducePhiIdioms, InputAt, hin, hm]
        simp [hp, hq, hb1, hb2, hbb]
    · left
      simp only [ReducePhiIdioms, InputAt, hin, hm]
      simp [hp, hq]
  · by_cases hq : opcode g q = .kIfTrue ∧ opcode g p = .kIfFalse
    · obtain ⟨b1, hb1, hbr⟩ := proj_inputs g q (hwf q) (Or.inl hq.1)
      obtain ⟨b2, hb2, _⟩ := proj_inputs g p (hwf p) (Or.inr hq.2)
      by_cases hbb : b1 = b2
      · subst hbb
        obtain ⟨cond, ctl, hcond⟩ := branch_inputs g b1 (hwf b1) hbr
        have h := ReducePhiIdioms_diamond_swapped M g n a c merge q p b1 cond [] [] [ctl] hin hm
          ((opcode_eq_IfTrue g q).mp hq.1) hb1 ((opcode_eq_IfFalse g p).mp hq.2) hb2 hcond
          (hwf cond) (fun _ => hwf a)
        cases hci : condIdiom M g cond c a with
        | none => left; simpa [hci] using h
        | some nd =>
          right
          exact ⟨cond, c, a, nd, Or.inr ⟨rfl, rfl⟩, hci, by simpa [hci] using h⟩
      · left
        simp only [ReducePhiIdioms, InputAt, hin, hm]
        simp [hp, hq, hb1, hb2, hbb]
    · left
      simp only [ReducePhiIdioms, InputAt, hin, hm]
      simp only [not_and] at hq
      simp [hp]
      intro h1 h2
      exact absurd h2 (hq h1)

theorem NodeOk_lessThan (w : Width) (g : Graph) (m l r : NodeId)
    (hop : (g m).op = w.LessThan) (hi : (g m).inputs = [l, r]) : NodeOk g m = true := by
  cases w <;> simp [NodeOk, opcode, hop, hi, Width.LessThan, Operator.opcode]

theorem NodeOk_sub (w : Width) (g : Graph) (m l r : NodeId)
    (hop : (g m).op = w.Sub) (hi : (g m).inputs = [l, r]) : NodeOk g m = true := by
  cases w <;> simp [NodeOk, opcode, hop, hi, Width.Sub, Operator.opcode]

theorem condIdiom_lessThan (M : MachineOperatorBuilder) (w : Width) (g : Graph)
    (cond l r vt vf : NodeId) (tl : List NodeId)
    (hop : (g cond).op = w.LessThan) (hi : (g cond).inputs = l :: r :: tl) :
    condIdiom M g cond vt vf = idiom M w g l r vt vf := by
  cases w <;> simp [condIdiom, hop, hi, Width.LessThan]

/-- ReducePhi on a two-valued Phi whose merge is a diamond listing the true
projection first. -/
theorem ReducePhi_diamond (M : MachineOperatorBuilder) (g : Graph)
    (n a c merge t f b cond : NodeId) (tlt tlf tlb : List NodeId)
    (hin : (g n).inputs = [a, c, merge]) (hm : (g merge).inputs = [t, f])
    (ht : (g t).op = .IfTrue) (hti : (g t).inputs = b :: tlt)
    (hf : (g f).op = .IfFalse) (hfi : (g f).inputs = b :: tlf)
    (hb : (g b).inputs = cond :: tlb)
    (hcond : NodeOk g cond = true)
    (hvf : (g cond).inputs[1]? = some a → NodeOk g c = true) :
    ReducePhi M g n = some
      (match condIdiom M g cond a c with
       | some nd => rewritten g n nd [merge]
       | none => if c = n ∨ c = a then ⟨.Replace a, g, [merge]⟩ else ⟨.NoChange, g, []⟩) := by
  rw [ReducePhi_eq M g n a merge [c] (by simpa using hin),
    if_pos (show [c].length = 1 from rfl),
    ReducePhiIdioms_diamond M g n a c merge t f b cond tlt tlf tlb hin hm ht hti hf hfi hb
      hcond hvf]
  cases condIdiom M g cond a c <;> simp

/-- ReducePhi on a two-valued Phi whose merge is a diamond listing the false
projection first. -/
theorem ReducePhi_diamond_swapped (M : MachineOperatorBuilder) (g : Graph)
    (n a c merge t f b cond : NodeId) (tlt tlf tlb : List NodeId)
    (hin : (g n).inputs = [a, c, merge]) (hm : (g merge).inputs = [f, t])
    (ht : (g t).op = .IfTrue) (hti : (g t).inputs = b :: tlt)
    (hf : (g f).op = .IfFalse) (hfi : (g f).inputs = b :: tlf)
    (hb : (g b).inputs = cond :: tlb)
    (hcond : NodeOk g cond = true)
    (hvf : (g cond).inputs[1]? = some c → NodeOk g a = true) :
    ReducePhi M g n = some
      (match condIdiom M g cond c a with
       | some nd => rewritten g n nd [merge]
       | none => if c = n ∨ c = a then ⟨.Replace a, g, [merge]⟩ else ⟨.NoChange, g, []⟩) := by
  rw [ReducePhi_eq M g n a merge [c] (by simpa using hin),
    if_pos (show [c].length = 1 from rfl),
    ReducePhiIdioms_diamond_swapped M g n a c merge t f b cond tlt tlf tlb hin hm ht hti hf hfi
      hb hcond hvf]
  cases condIdiom M g cond c a <;> simp

/-! ## ReduceEffectPhi -/

/-- C1: an EffectPhi with operands e0 :: es ++ [merge] whose operands es are
each the node itself or e0 is reduced to Replace(e0), the graph is left as it
is and exactly one revisit request, for merge, is issued. -/
theorem ReduceEffectPhi_collapse (g : Graph) (n e0 merge : NodeId) (es : List NodeId)
    (hin : (g n).inputs = e0 :: es ++ [merge])
    (hall : ∀ e ∈ es, e = n ∨ e = e0) :
    ReduceEffectPhi g n = some ⟨.Replace e0, g, [merge]⟩ := by
  have hscan := scanInputs_operands g n e0 merge es hin
  have hmerge := InputAt_merge g n e0 merge es hin
  have hzero := InputAt_zero g n e0 (es ++ [merge]) (by simpa using hin)
  have htrue : (es.all fun e => e == n || e == e0) = true := by
    rw [List.all_eq_true]
    intro e he
    rcases hall e he with h | h <;> simp [h]
  simp only [ReduceEffectPhi, hmerge, hzero, hscan, htrue, Option.bind_eq_bind,
    Option.some_bind, if_true]

/-- C1 on a Loop-attached EffectPhi with a self-referential operand. -/
theorem ReduceEffectPhi_collapse_witness :
    (loopEffectPhi 0).inputs = 1 :: [0, 1] ++ [2] ∧ (∀ e ∈ [0, 1], e = 0 ∨ e = 1) ∧
      ReduceEffectPhi loopEffectPhi 0 = some ⟨.Replace 1, loopEffectPhi, [2]⟩ :=
  ⟨rfl, by decide, ReduceEffectPhi_collapse loopEffectPhi 0 1 2 [0, 1] rfl (by decide)⟩

/-- C2: an EffectPhi with operands e0 :: es ++ [merge] that has two effect
operands, neither the node itself, that are different nodes is reduced to
NoChange, with the graph left as it is and no revisit request. -/
theorem ReduceEffectPhi_diverge (g : Graph) (n e0 merge : NodeId) (es : List NodeId)
    (hin : (g n).inputs = e0 :: es ++ [merge])
    (a b : NodeId) (ha : a ∈ e0 :: es) (hb : b ∈ e0 :: es)
    (han : a ≠ n) (hbn : b ≠ n) (hab : a ≠ b) :
    ReduceEffectPhi g n = some ⟨.NoChange, g, []⟩ := by
  have hscan := scanInputs_operands g n e0 merge es hin
  have hmerge := InputAt_merge g n e0 merge es hin
  have hzero := InputAt_zero g n e0 (es ++ [merge]) (by simpa using hin)
  have hfalse : (es.all fun e => e == n || e == e0) = false := by
    by_contra hne
    have hall : ∀ e ∈ es, e = n ∨ e = e0 := by
      have hall1 : ∀ x ∈ es, ¬x = n → x = e0 := by simpa using hne
      intro e he
      by_cases h : e = n
      · exact Or.inl h
      · exact Or.inr (hall1 e he h)
    have key : ∀ c ∈ e0 :: es, c ≠ n → c = e0 := by
      intro c hc hcn
      rcases List.mem_cons.mp hc with h | h
      · exact h
      · rcases hall c h with h1 | h1
        · exact absurd h1 hcn
        · exact h1
    exact hab ((key a ha han).trans (key b hb hbn).symm)
  simp only [ReduceEffectPhi, hmerge, hzero, hscan, hfalse, Option.bind_eq_bind,
    Option.some_bind]
  simp

/-- C2 on a two-way EffectPhi with two different effect operands. -/
theorem ReduceEffectPhi_diverge_witness :
    (divergingEffectPhi 0).inputs = 1 :: [2] ++ [3] ∧
      ReduceEffectPhi divergingEffectPhi 0 = some ⟨.NoChange, divergingEffectPhi, []⟩ :=
  ⟨rfl, ReduceEffectPhi_diverge divergingEffectPhi 0 1 3 [2] rfl 1 2
    (by decide) (by decide) (by decide) (by decide) (by decide)⟩

/-! ## ReducePhi: the generic collapse -/

theorem wellFormed_ofList (l : List Node)
    (h : ∀ m, m < l.length → NodeOk (Graph.ofList l) m = true) :
    WellFormed (Graph.ofList l) := by
  intro m
  by_cases hm : m < l.length
  · exact h m hm
  · have hd : Graph.ofList l m = default :=
      List.getD_eq_default l default (Nat.le_of_not_lt hm)
    have hdef : (default : Node) = ⟨.Other 0, []⟩ := rfl
    simp [NodeOk, opcode, hd, hdef, Operator.opcode]

/-- C3, as stated, fails: on a diamond whose condition is
Float32LessThan(x, x), with the minimum capability present, a Phi whose two
value operands are both x satisfies every hypothesis of the claim and is
rewritten in place to Float32Min(x, x); the reduction is Changed, not
Replace(x). -/
theorem ReducePhi_collapse_counterexample :
    (sameArmsDiamond 0).op = .Phi ∧
      (sameArmsDiamond 0).inputs = 1 :: [1] ++ [2] ∧
      (sameArmsDiamond 2).op = .Merge ∧
      (sameArmsDiamond 2).inputs.length = (1 :: [1]).length ∧
      (1 : NodeId) ≠ 0 ∧
      (∀ v ∈ 1 :: [1], v ≠ 0 → v = 1) ∧
      WellFormed sameArmsDiamond ∧
      (ReducePhi allCaps sameArmsDiamond 0).map (fun out => out.view 0)
        = some (.Changed 0, ⟨.Float32Min, [1, 1]⟩, [2]) ∧
      (ReducePhi allCaps sameArmsDiamond 0).map (fun out => out.reduction)
        ≠ some (.Replace 1) := by
  refine ⟨rfl, rfl, rfl, rfl, by decide, by decide, wellFormed_ofList _ (by decide), ?_, ?_⟩
  · rfl
  · decide

/-! ## ReducePhi: the idioms -/

/-- C4: at each width W, a Phi with operands [x, s, merge] on the diamond of
a Branch whose condition is W-LessThan(c, x), c matching Is(0.0), with s the
node W-Sub(z, x), z matching IsZero, is rewritten in place: the reduction is
Changed(n), n becomes W-Abs with operand list [x], every other node is left as
it is, and one revisit request, for merge, is issued; whatever the capability
flags. -/
theorem ReducePhi_abs (M : MachineOperatorBuilder) (w : Width) (g : Graph)
    (n x s merge t f b cond c z : NodeId) (tlb : List NodeId)
    (hin : (g n).inputs = [x, s, merge]) (hm : (g merge).inputs = [t, f])
    (ht : (g t).op = .IfTrue) (hti : (g t).inputs = [b])
    (hf : (g f).op = .IfFalse) (hfi : (g f).inputs = [b])
    (hb : (g b).inputs = cond :: tlb)
    (hc : (g cond).op = w.LessThan) (hci : (g cond).inputs = [c, x])
    (hc0 : w.Is0 g c = true)
    (hs : (g s).op = w.Sub) (hsi : (g s).inputs = [z, x])
    (hz : w.IsZero g z = true) :
    ReducePhi M g n = some ⟨.Changed n, g.set n ⟨w.Abs, [x]⟩, [merge]⟩ := by
  rw [ReducePhi_diamond M g n x s merge t f b cond [] [] tlb hin hm ht hti hf hfi hb
      (NodeOk_lessThan w g cond c x hc hci) (fun _ => NodeOk_sub w g s z x hs hsi),
    condIdiom_lessThan M w g cond c x x s [] hc hci]
  simp [idiom, AbsShape, hc0, hs, hsi, hz, rewritten]

/-- C4 on the Float32 absolute-value diamond, with no capability present. -/
theorem ReducePhi_abs_witness :
    (absDiamond 0).inputs = [1, 8, 2] ∧ (absDiamond 6).op = Width.Float32.LessThan ∧
      (absDiamond 6).inputs = [9, 1] ∧ Width.Float32.Is0 absDiamond 9 = true ∧
      (absDiamond 8).op = Width.Float32.Sub ∧ (absDiamond 8).inputs = [9, 1] ∧
      Width.Float32.IsZero absDiamond 9 = true ∧
      ReducePhi noCaps absDiamond 0
        = some ⟨.Changed 0, absDiamond.set 0 ⟨Width.Float32.Abs, [1]⟩, [2]⟩ :=
  ⟨rfl, rfl, rfl, by decide, rfl, rfl, by decide,
    ReducePhi_abs noCaps .Float32 absDiamond 0 1 8 2 3 4 5 6 9 9 [7] rfl rfl rfl rfl rfl rfl rfl
      rfl rfl (by decide) rfl rfl (by decide)⟩

/-- C6: at each width W, a Phi with operands [vtrue, vfalse, merge] on the
diamond of a Branch whose condition is W-LessThan(vfalse, vtrue) is, when
neither the absolute-value shape nor the capability-enabled minimum shape
matches and the target has W-Max, rewritten in place to W-Max with operand
list [vtrue, vfalse] (reduction Changed(n), one revisit request for merge);
when the target has no W-Max, ReducePhi returns and the Phi is not a W-Max
afterwards. -/
theorem ReducePhi_max (M : MachineOperatorBuilder) (w : Width) (g : Graph)
    (n vtrue vfalse merge t f b cond : NodeId) (tlb : List NodeId)
    (hn : (g n).op = .Phi)
    (hin : (g n).inputs = [vtrue, vfalse, merge]) (hm : (g merge).inputs = [t, f])
    (ht : (g t).op = .IfTrue) (hti : (g t).inputs = [b])
    (hf : (g f).op = .IfFalse) (hfi : (g f).inputs = [b])
    (hb : (g b).inputs = cond :: tlb)
    (hc : (g cond).op = w.LessThan) (hci : (g cond).inputs = [vfalse, vtrue])
    (hok : NodeOk g vfalse = true) :
    (AbsShape w g vfalse vtrue vtrue vfalse = false →
      MinShape M w vfalse vtrue vtrue vfalse = false →
      M.HasMax w = true →
      ReducePhi M g n = some ⟨.Changed n, g.set n ⟨w.Max, [vtrue, vfalse]⟩, [merge]⟩) ∧
    (M.HasMax w = false →
      ∃ out, ReducePhi M g n = some out ∧ (out.graph n).op ≠ w.Max) := by
  have hred := ReducePhi_diamond M g n vtrue vfalse merge t f b cond [] [] tlb hin hm ht hti
      hf hfi hb (NodeOk_lessThan w g cond vfalse vtrue hc hci) (fun _ => hok)
  rw [condIdiom_lessThan M w g cond vfalse vtrue vtrue vfalse [] hc hci] at hred
  constructor
  · intro habs hmin hmax
    rw [hred]
    simp [idiom, habs, hmin, MaxShape, hmax, rewritten]
  · intro hmax
    refine ⟨_, hred, ?_⟩
    have hmaxShape : MaxShape M w vfalse vtrue vtrue vfalse = false := by
      simp [MaxShape, hmax]
    unfold idiom
    rw [hmaxShape]
    cases AbsShape w g vfalse vtrue vtrue vfalse <;>
      cases MinShape M w vfalse vtrue vtrue vfalse <;>
      cases w <;>
      simp [rewritten, Graph.set, Width.Abs, Width.Min, Width.Max, hn] <;>
      split <;> simp [hn]

/-- C6 on the Float32 maximum diamond: rewritten with every capability
present, not a Float32Max afterwards with none. -/
theorem ReducePhi_max_witness :
    (maxDiamond 0).inputs = [1, 8, 2] ∧ (maxDiamond 6).op = Width.Float32.LessThan ∧
      (maxDiamond 6).inputs = [8, 1] ∧
      AbsShape .Float32 maxDiamond 8 1 1 8 = false ∧
      MinShape allCaps .Float32 8 1 1 8 = false ∧
      ReducePhi allCaps maxDiamond 0
        = some ⟨.Changed 0, maxDiamond.set 0 ⟨Width.Float32.Max, [1, 8]⟩, [2]⟩ ∧
      ∃ out, ReducePhi noCaps maxDiamond 0 = some out ∧
        (out.graph 0).op ≠ Width.Float32.Max :=
  ⟨rfl, rfl, rfl, by decide, by decide,
    (ReducePhi_max allCaps .Float32 maxDiamond 0 1 8 2 3 4 5 6 [7] rfl rfl rfl rfl rfl rfl rfl
      rfl rfl rfl (by decide)).1 (by decide) (by decide) rfl,
    (ReducePhi_max noCaps .Float32 maxDiamond 0 1 8 2 3 4 5 6 [7] rfl rfl rfl rfl rfl rfl rfl
      rfl rfl rfl (by decide)).2 rfl⟩

/-- C7: for a Branch b with projections T and F and nodes a, c, neither of
them the Phi it is the second value operand of, ReducePhi on
n1 = Phi(a, c, Merge(T, F)) and on n2 = Phi(c, a, Merge(F, T)) both return,
with the same kind of reduction:
both NoChange, or both Replace of the same node, or both Changed with the two
Phis rewritten to the same operator and the same operand list. -/
theorem ReducePhi_order (M : MachineOperatorBuilder) (g : Graph)
    (n1 n2 a c m1 m2 t f b cond : NodeId) (tlb : List NodeId)
    (hin1 : (g n1).inputs = [a, c, m1]) (hm1 : (g m1).inputs = [t, f])
    (hin2 : (g n2).inputs = [c, a, m2]) (hm2 : (g m2).inputs = [f, t])
    (ht : (g t).op = .IfTrue) (hti : (g t).inputs = [b])
    (hf : (g f).op = .IfFalse) (hfi : (g f).inputs = [b])
    (hb : (g b).inputs = cond :: tlb)
    (hc1 : c ≠ n1) (ha2 : a ≠ n2)
    (hcond : NodeOk g cond = true) (hok : NodeOk g c = true) :
    ∃ out1 out2, ReducePhi M g n1 = some out1 ∧ ReducePhi M g n2 = some out2 ∧
      ((out1.reduction = .NoChange ∧ out2.reduction = .NoChange) ∨
       (∃ r, out1.reduction = .Replace r ∧ out2.reduction = .Replace r) ∨
       (out1.reduction = .Changed n1 ∧ out2.reduction = .Changed n2 ∧
          (out1.graph n1).op = (out2.graph n2).op ∧
          (out1.graph n1).inputs = (out2.graph n2).inputs)) := by
  have h1 := ReducePhi_diamond M g n1 a c m1 t f b cond [] [] tlb hin1 hm1 ht hti hf hfi hb
    hcond (fun _ => hok)
  have h2 := ReducePhi_diamond_swapped M g n2 c a m2 t f b cond [] [] tlb hin2 hm2 ht hti hf hfi
    hb hcond (fun _ => hok)
  refine ⟨_, _, h1, h2, ?_⟩
  cases condIdiom M g cond a c with
  | some nd =>
    right; right
    simp [rewritten, Graph.set]
  | none =>
    by_cases hac : c = a
    · right; left
      exact ⟨a, by simp [hac], by simp [hac]⟩
    · left
      have hca : ¬ a = c := fun h => hac h.symm
      simp [hac, hca, hc1, ha2]

/-- C7 on the two orderings of the Float32 minimum diamond. -/
theorem ReducePhi_order_witness :
    (orderPair 0).inputs = [1, 8, 2] ∧ (orderPair 2).inputs = [3, 4] ∧
      (orderPair 9).inputs = [8, 1, 10] ∧ (orderPair 10).inputs = [4, 3] ∧
      ∃ out1 out2, ReducePhi allCaps orderPair 0 = some out1 ∧
        ReducePhi allCaps orderPair 9 = some out2 ∧
        ((out1.reduction = .NoChange ∧ out2.reduction = .NoChange) ∨
         (∃ r, out1.reduction = .Replace r ∧ out2.reduction = .Replace r) ∨
         (out1.reduction = .Changed 0 ∧ out2.reduction = .Changed 9 ∧
            (out1.graph 0).op = (out2.graph 9).op ∧
            (out1.graph 0).inputs = (out2.graph 9).inputs)) :=
  ⟨rfl, rfl, rfl, rfl,
    ReducePhi_order allCaps orderPair 0 9 1 8 2 10 3 4 5 6 [7] rfl rfl rfl rfl rfl rfl rfl rfl
      rfl (by decide) (by decide) (by decide) (by decide)⟩

/-! ## ReduceSelect -/

theorem opcode_eq_HeapConstant (g : Graph) (m : NodeId) :
    opcode g m = .kHeapConstant ↔ ∃ b, (g m).op = .HeapConstant b := by
  unfold opcode; cases (g m).op <;> simp [Operator.opcode]

/-- ReduceSelect on a Select whose arms differ and whose condition is no
constant object: the idiom checks of section 4.2 steps 3-5 on the condition
and the two arms, and NoChange when none matches. -/
theorem ReduceSelect_eq (M : MachineOperatorBuilder) (g : Graph)
    (n cond vtrue vfalse : NodeId)
    (hin : (g n).inputs = [cond, vtrue, vfalse]) (hne : vtrue ≠ vfalse)
    (hheap : opcode g cond ≠ .kHeapConstant)
    (hcond : NodeOk g cond = true)
    (hvf : (g cond).inputs[1]? = some vtrue → NodeOk g vfalse = true) :
    ReduceSelect M g n = some
      (match condIdiom M g cond vtrue vfalse with
       | some nd => rewritten g n nd []
       | none => ⟨.NoChange, g, []⟩) := by
  have hlen : 2 ≤ (g n).inputs.length := by simp [hin]
  have hc32 := Change1_eq g n vtrue .Float32Abs (by omega)
  have hmin32 := Change2_eq g n vtrue vfalse .Float32Min hlen
  have hmax32 := Change2_eq g n vtrue vfalse .Float32Max hlen
  have hc64 := Change1_eq g n vtrue .Float64Abs (by omega)
  have hmin64 := Change2_eq g n vtrue vfalse .Float64Min hlen
  have hmax64 := Change2_eq g n vtrue vfalse .Float64Max hlen
  simp only [ReduceSelect, InputAt, hin]
  simp only [Int.toNat_zero, Int.toNat_one, Int.toNat_ofNat, lt_self_iff_false, if_false,
    List.getElem?_cons_zero, List.getElem?_cons_succ, Option.bind_eq_bind, Option.some_bind,
    hne, hheap, show ¬ ((1 : Int) < 0) by decide, show ¬ ((2 : Int) < 0) by decide,
    show (2 : Int).toNat = 2 from rfl]
  by_cases h32 : (g cond).op = .Float32LessThan
  · obtain ⟨l, r, hlr⟩ := lessThan_inputs g cond hcond (Or.inl h32)
    have habs := Float32AbsMatch_eq g l r vtrue vfalse (fun h => hvf (by simp [hlr, h]))
    rw [if_pos ((opcode_eq_Float32LessThan g cond).mpr h32)]
    simp only [mk2_eq g cond l r [] hlr, habs, Option.some_bind, hc32, hmin32, hmax32,
      noRevisit, Option.map_some', condIdiom, h32, hlr, idiom, MinShape, MaxShape,
      MachineOperatorBuilder.HasMin, MachineOperatorBuilder.HasMax, Width.Abs, Width.Min,
      Width.Max, rewritten, decide_eq_true_eq]
    cases AbsShape .Float32 g l r vtrue vfalse
    · simp only [Bool.false_eq_true, if_false]
      split_ifs <;> rfl
    · simp
  · by_cases h64 : (g cond).op = .Float64LessThan
    · obtain ⟨l, r, hlr⟩ := lessThan_inputs g cond hcond (Or.inr h64)
      have habs := Float64AbsMatch_eq g l r vtrue vfalse (fun h => hvf (by simp [hlr, h]))
      rw [if_neg (fun h => h32 ((opcode_eq_Float32LessThan g cond).mp h)),
        if_pos ((opcode_eq_Float64LessThan g cond).mpr h64)]
      simp only [mk2_eq g cond l r [] hlr, habs, Option.some_bind, hc64, hmin64, hmax64,
        noRevisit, Option.map_some', condIdiom, h64, hlr, idiom, MinShape, MaxShape,
        MachineOperatorBuilder.HasMin, MachineOperatorBuilder.HasMax, Width.Abs, Width.Min,
        Width.Max, rewritten, decide_eq_true_eq]
      cases AbsShape .Float64 g l r vtrue vfalse
      · simp only [Bool.false_eq_true, if_false]
        split_ifs <;> rfl
      · simp
    · rw [if_neg (fun h => h32 ((opcode_eq_Float32LessThan g cond).mp h)),
        if_neg (fun h => h64 ((opcode_eq_Float64LessThan g cond).mp h))]
      have : condIdiom M g cond vtrue vfalse = none := by
        unfold condIdiom
        split
        · exact absurd (by assumption) h32
        · exact absurd (by assumption) h64
        · rfl
      simp [this]

/-- C8: a Select with operands [cond, v, v] is reduced to Replace(v), with
the graph left as it is and no revisit request, whatever the condition node
and the capability flags. -/
theorem ReduceSelect_same_arms (M : MachineOperatorBuilder) (g : Graph) (n cond v : NodeId)
    (hin : (g n).inputs = [cond, v, v]) :
    ReduceSelect M g n = some ⟨.Replace v, g, []⟩ := by
  simp [ReduceSelect, InputAt, hin]

/-- C8 on a Select with a Float32LessThan condition and every capability. -/
theorem ReduceSelect_same_arms_witness :
    (sameArmsSelect 0).inputs = [1, 2, 2] ∧
      ReduceSelect allCaps sameArmsSelect 0 = some ⟨.Replace 2, sameArmsSelect, []⟩ :=
  ⟨rfl, ReduceSelect_same_arms allCaps sameArmsSelect 0 1 2 rfl⟩

/-- C9: a Select with operands [cond, vtrue, vfalse], vtrue and vfalse
different nodes and cond a HeapConstant, is reduced to Replace(vtrue) when the
constant coerces to true and to Replace(vfalse) when it coerces to false, with
the graph left as it is and no revisit request, whatever the arms and the
capability flags. -/
theorem ReduceSelect_constant (M : MachineOperatorBuilder) (g : Graph)
    (n cond vtrue vfalse : NodeId) (b : Bool)
    (hin : (g n).inputs = [cond, vtrue, vfalse]) (hne : vtrue ≠ vfalse)
    (hcond : (g cond).op = .HeapConstant b) :
    ReduceSelect M g n = some ⟨.Replace (if b then vtrue else vfalse), g, []⟩ := by
  have hop : opcode g cond = .kHeapConstant := (opcode_eq_HeapConstant g cond).mpr ⟨b, hcond⟩
  simp [ReduceSelect, InputAt, hin, hne, hop, HeapObjectBooleanValue, hcond]

/-- C9 on a Select whose constant condition coerces to false. -/
theorem ReduceSelect_constant_witness :
    (constantSelect 0).inputs = [1, 2, 3] ∧ (2 : NodeId) ≠ 3 ∧
      (constantSelect 1).op = .HeapConstant false ∧
      ReduceSelect allCaps constantSelect 0
        = some ⟨.Replace (if false then 2 else 3), constantSelect, []⟩ :=
  ⟨rfl, by decide, rfl,
    ReduceSelect_constant allCaps constantSelect 0 1 2 3 false rfl (by decide) rfl⟩

/-- C10: for a condition node that is no HeapConstant and two different
arms t and f, ReduceSelect on s = Select(cond, t, f) and ReducePhi on
p = Phi(t, f, Merge(IfTrue(b), IfFalse(b))), b a Branch on cond, both return;
the Select is Changed with a given operator and operand list afterwards exactly
when the Phi is Changed with that operator and that operand list afterwards;
and a Select that is not Changed is reduced to NoChange with the graph left as
it is. -/
theorem ReduceSelect_matches_ReducePhi (M : MachineOperatorBuilder) (g : Graph)
    (s p cond t f merge pt pf b : NodeId) (tlb : List NodeId)
    (hs : (g s).inputs = [cond, t, f])
    (hp : (g p).inputs = [t, f, merge]) (hm : (g merge).inputs = [pt, pf])
    (hpt : (g pt).op = .IfTrue) (hpti : (g pt).inputs = [b])
    (hpf : (g pf).op = .IfFalse) (hpfi : (g pf).inputs = [b])
    (hb : (g b).inputs = cond :: tlb)
    (hheap : opcode g cond ≠ .kHeapConstant) (hne : t ≠ f)
    (hcond : NodeOk g cond = true) (hok : NodeOk g f = true) :
    ∃ outS outP, ReduceSelect M g s = some outS ∧ ReducePhi M g p = some outP ∧
      (∀ nd : Node, (outS.reduction = .Changed s ∧ outS.graph s = nd) ↔
        (outP.reduction = .Changed p ∧ outP.graph p = nd)) ∧
      (outS.reduction = .Changed s ∨ (outS.reduction = .NoChange ∧ outS.graph = g)) := by
  have h1 := ReduceSelect_eq M g s cond t f hs hne hheap hcond (fun _ => hok)
  have h2 := ReducePhi_diamond M g p t f merge pt pf b cond [] [] tlb hp hm hpt hpti hpf hpfi hb
    hcond (fun _ => hok)
  refine ⟨_, _, h1, h2, ?_, ?_⟩
  · intro nd
    cases condIdiom M g cond t f with
    | some nd2 => simp [rewritten, Graph.set]
    | none =>
      by_cases hfp : f = p ∨ f = t
      · simp [hfp]
      · simp [hfp]
  · cases condIdiom M g cond t f with
    | some nd2 => left; rfl
    | none => right; exact ⟨rfl, rfl⟩

/-- C10 on a Select and a Phi over Float32LessThan(a, c) with arms a, c. -/
theorem ReduceSelect_matches_ReducePhi_witness :
    (selectAndPhi 9).inputs = [6, 1, 8] ∧ (selectAndPhi 0).inputs = [1, 8, 2] ∧
      opcode selectAndPhi 6 ≠ .kHeapConstant ∧ (1 : NodeId) ≠ 8 ∧
      ∃ outS outP, ReduceSelect allCaps selectAndPhi 9 = some outS ∧
        ReducePhi allCaps selectAndPhi 0 = some outP ∧
        (∀ nd : Node, (outS.reduction = .Changed 9 ∧ outS.graph 9 = nd) ↔
          (outP.reduction = .Changed 0 ∧ outP.graph 0 = nd)) ∧
        (outS.reduction = .Changed 9 ∨
          (outS.reduction = .NoChange ∧ outS.graph = selectAndPhi)) :=
  ⟨rfl, rfl, by decide, by decide,
    ReduceSelect_matches_ReducePhi allCaps selectAndPhi 9 0 6 1 8 2 3 4 5 [7] rfl rfl rfl rfl rfl
      rfl rfl rfl (by decide) (by decide) (by decide) (by decide)⟩

/-! ## What the rules return, on any graph -/

theorem Change1_inv (g : Graph) (node a : NodeId) (op : Operator) (r : Reduction × Graph)
    (h : Change1 g node op a = some r) :
    1 ≤ (g node).inputs.length ∧ r = (.Changed node, g.set node ⟨op, [a]⟩) := by
  by_cases hl : 1 ≤ (g node).inputs.length
  · rw [Change1_eq g node a op hl] at h
    exact ⟨hl, (Option.some.inj h).symm⟩
  · have h0 : (g node).inputs = [] := by
      cases hi : (g node).inputs with
      | nil => rfl
      | cons x tl => simp [hi] at hl
    simp [Change1, set_op, ReplaceInput, Graph.set_same, h0] at h

theorem Change2_inv (g : Graph) (node a b : NodeId) (op : Operator) (r : Reduction × Graph)
    (h : Change2 g node op a b = some r) :
    2 ≤ (g node).inputs.length ∧ r = (.Changed node, g.set node ⟨op, [a, b]⟩) := by
  by_cases hl : 2 ≤ (g node).inputs.length
  · rw [Change2_eq g node a b op hl] at h
    exact ⟨hl, (Option.some.inj h).symm⟩
  · exfalso
    cases hi : (g node).inputs with
    | nil => simp [Change2, set_op, ReplaceInput, Graph.set_same, hi] at h
    | cons x tl =>
      cases tl with
      | nil => simp [Change2, set_op, ReplaceInput, Graph.set_same, Graph.set_set, hi] at h
      | cons y tl => simp [hi] at hl

/-- What a float section of ReducePhi returns when it returns at all. -/
theorem ReducePhiFloat32_inv (M : MachineOperatorBuilder) (g : Graph)
    (node merge cond vtrue vfalse : NodeId) (out : Outcome)
    (h : ReducePhiFloat32 M g node merge cond vtrue vfalse = some (some out)) :
    ∃ nd, isIdiomNode nd = true ∧ out = rewritten g node nd [merge] := by
  unfold ReducePhiFloat32 at h
  simp only [Option.bind_eq_bind, Option.bind_eq_some] at h
  obtain ⟨mcond, _, isAbs, _, h⟩ := h
  split_ifs at h
  · simp only [revisitThen, Option.map_eq_some'] at h
    obtain ⟨o, ⟨rg, hrg, rfl⟩, ho⟩ := h
    cases Option.some.inj ho
    obtain ⟨_, rfl⟩ := Change1_inv _ _ _ _ _ hrg
    exact ⟨⟨.Float32Abs, [vtrue]⟩, rfl, rfl⟩
  · simp only [revisitThen, Option.map_eq_some'] at h
    obtain ⟨o, ⟨rg, hrg, rfl⟩, ho⟩ := h
    cases Option.some.inj ho
    obtain ⟨_, rfl⟩ := Change2_inv _ _ _ _ _ _ hrg
    exact ⟨⟨.Float32Min, [vtrue, vfalse]⟩, rfl, rfl⟩
  · simp only [revisitThen, Option.map_eq_some'] at h
    obtain ⟨o, ⟨rg, hrg, rfl⟩, ho⟩ := h
    cases Option.some.inj ho
    obtain ⟨_, rfl⟩ := Change2_inv _ _ _ _ _ _ hrg
    exact ⟨⟨.Float32Max, [vtrue, vfalse]⟩, rfl, rfl⟩
  · simp at h

theorem ReducePhiFloat64_inv (M : MachineOperatorBuilder) (g : Graph)
    (node merge cond vtrue vfalse : NodeId) (out : Outcome)
    (h : ReducePhiFloat64 M g node merge cond vtrue vfalse = some (some out)) :
    ∃ nd, isIdiomNode nd = true ∧ out = rewritten g node nd [merge] := by
  unfold ReducePhiFloat64 at h
  simp only [Option.bind_eq_bind, Option.bind_eq_some] at h
  obtain ⟨mcond, _, isAbs, _, h⟩ := h
  split_ifs at h
  · simp only [revisitThen, Option.map_eq_some'] at h
    obtain ⟨o, ⟨rg, hrg, rfl⟩, ho⟩ := h
    cases Option.some.inj ho
    obtain ⟨_, rfl⟩ := Change1_inv _ _ _ _ _ hrg
    exact ⟨⟨.Float64Abs, [vtrue]⟩, rfl, rfl⟩
  · simp only [revisitThen, Option.map_eq_some'] at h
    obtain ⟨o, ⟨rg, hrg, rfl⟩, ho⟩ := h
    cases Option.some.inj ho
    obtain ⟨_, rfl⟩ := Change2_inv _ _ _ _ _ _ hrg
    exact ⟨⟨.Float64Min, [vtrue, vfalse]⟩, rfl, rfl⟩
  · simp only [revisitThen, Option.map_eq_some'] at h
    obtain ⟨o, ⟨rg, hrg, rfl⟩, ho⟩ := h
    cases Option.some.inj ho
    obtain ⟨_, rfl⟩ := Change2_inv _ _ _ _ _ _ hrg
    exact ⟨⟨.Float64Max, [vtrue, vfalse]⟩, rfl, rfl⟩
  · simp at h

/-- What the idiom detection returns when it reaches a return statement. -/
theorem ReducePhiIdioms_inv (M : MachineOperatorBuilder) (g : Graph)
    (node merge : NodeId) (out : Outcome)
    (h : ReducePhiIdioms M g node merge = some (some out)) :
    ∃ nd, isIdiomNode nd = true ∧ out = rewritten g node nd [merge] := by
  unfold ReducePhiIdioms at h
  simp only [Option.bind_eq_bind, Option.bind_eq_some] at h
  obtain ⟨vtrue0, _, vfalse0, _, if_true0, _, if_false0, _, h⟩ := h
  split_ifs at h <;> first | (exact absurd h (by simp)) | skip
  all_goals
    simp only [Option.bind_eq_some] at h
    obtain ⟨b1, _, b2, _, h⟩ := h
    split_ifs at h <;> first | (exact absurd h (by simp)) | skip
  all_goals
    simp only [Option.bind_eq_some] at h
    obtain ⟨branch, _, cond, _, h⟩ := h
    split_ifs at h
  all_goals
    first
    | exact ReducePhiFloat32_inv M g node merge _ _ _ out h
    | exact ReducePhiFloat64_inv M g node merge _ _ _ out h
    | exact absurd h (by simp)

theorem ReducePhiGeneric_inv (g : Graph) (node merge : NodeId) (ic : Int) (out : Outcome)
    (h : ReducePhiGeneric g node ic merge = some out) :
    (∃ v, out = ⟨.Replace v, g, [merge]⟩) ∨ out = ⟨.NoChange, g, []⟩ := by
  unfold ReducePhiGeneric at h
  simp only [Option.bind_eq_bind, Option.bind_eq_some] at h
  obtain ⟨value, _, all, _, h⟩ := h
  split_ifs at h
  · exact Or.inl ⟨value, (Option.some.inj h).symm⟩
  · exact Or.inr (Option.some.inj h).symm

theorem InputAt_last (g : Graph) (node merge : NodeId)
    (h : InputAt g node (InputCount g node - 1) = some merge) :
    (g node).inputs.getLast? = some merge := by
  unfold InputAt InputCount at h
  split_ifs at h with hneg
  have hpos : 1 ≤ (g node).inputs.length := by omega
  have hidx : (((g node).inputs.length : Int) - 1).toNat = (g node).inputs.length - 1 := by
    omega
  rw [hidx] at h
  rw [List.getLast?_eq_getElem?]
  exact h

/-- What ReducePhi returns when it returns at all, on any graph. -/
theorem ReducePhi_inv (M : MachineOperatorBuilder) (g : Graph) (n : NodeId) (out : Outcome)
    (h : ReducePhi M g n = some out) :
    ∃ merge, (g n).inputs.getLast? = some merge ∧
      ((∃ v, out = ⟨.Replace v, g, [merge]⟩) ∨ out = ⟨.NoChange, g, []⟩ ∨
        ((g n).inputs.length = 3 ∧ ∃ nd, isIdiomNode nd = true ∧
          out = rewritten g n nd [merge])) := by
  unfold ReducePhi at h
  simp only [Option.bind_eq_bind, Option.bind_eq_some] at h
  obtain ⟨merge, hmerge, early, hearly, h⟩ := h
  refine ⟨merge, InputAt_last g n merge hmerge, ?_⟩
  cases early with
  | some o =>
    simp only at h
    cases Option.some.inj h
    split_ifs at hearly with hc
    · right; right
      refine ⟨?_, ReducePhiIdioms_inv M g n merge out hearly⟩
      unfold InputCount at hc
      omega
    · simp at hearly
  | none =>
    simp only at h
    rcases ReducePhiGeneric_inv g n merge _ out h with h1 | h1
    · exact Or.inl h1
    · exact Or.inr (Or.inl h1)

theorem ReduceEffectPhi_inv (g : Graph) (n : NodeId) (out : Outcome)
    (h : ReduceEffectPhi g n = some out) :
    ∃ merge, (g n).inputs.getLast? = some merge ∧
      ((∃ v, out = ⟨.Replace v, g, [merge]⟩) ∨ out = ⟨.NoChange, g, []⟩) := by
  unfold ReduceEffectPhi at h
  simp only [Option.bind_eq_bind, Option.bind_eq_some] at h
  obtain ⟨merge, hmerge, effect, _, all, _, h⟩ := h
  refine ⟨merge, InputAt_last g n merge hmerge, ?_⟩
  split_ifs at h
  · exact Or.inl ⟨effect, (Option.some.inj h).symm⟩
  · exact Or.inr (Option.some.inj h).symm

/-- What ReduceSelect returns when it returns at all, on any graph. -/
theorem ReduceSelect_inv (M : MachineOperatorBuilder) (g : Graph) (n : NodeId) (out : Outcome)
    (h : ReduceSelect M g n = some out) :
    (∃ v, out = ⟨.Replace v, g, []⟩) ∨ out = ⟨.NoChange, g, []⟩ ∨
      (3 ≤ (g n).inputs.length ∧ ∃ nd, isIdiomNode nd = true ∧ out = rewritten g n nd []) := by
  unfold ReduceSelect at h
  simp only [Option.bind_eq_bind, Option.bind_eq_some] at h
  obtain ⟨cond, _, vtrue, _, vfalse, hvf, h⟩ := h
  have hlen : 3 ≤ (g n).inputs.length := by
    unfold InputAt at hvf
    simp only [show ¬ ((2 : Int) < 0) by decide, if_false, show (2 : Int).toNat = 2 from rfl]
      at hvf
    have := (List.getElem?_eq_some.mp hvf).1
    omega
  split_ifs at h
  · exact Or.inl ⟨vtrue, (Option.some.inj h).symm⟩
  · simp only [Option.bind_eq_some] at h
    obtain ⟨b, _, h⟩ := h
    exact Or.inl ⟨_, (Option.some.inj h).symm⟩
  · simp only [Option.bind_eq_some] at h
    obtain ⟨mcond, _, isAbs, _, h⟩ := h
    split_ifs at h
    · simp only [noRevisit, Option.map_eq_some'] at h
      obtain ⟨rg, hrg, rfl⟩ := h
      obtain ⟨_, rfl⟩ := Change1_inv _ _ _ _ _ hrg
      exact Or.inr (Or.inr ⟨hlen, ⟨.Float32Abs, [vtrue]⟩, rfl, rfl⟩)
    · simp only [noRevisit, Option.map_eq_some'] at h
      obtain ⟨rg, hrg, rfl⟩ := h
      obtain ⟨_, rfl⟩ := Change2_inv _ _ _ _ _ _ hrg
      exact Or.inr (Or.inr ⟨hlen, ⟨.Float32Min, [vtrue, vfalse]⟩, rfl, rfl⟩)
    · simp only [noRevisit, Option.map_eq_some'] at h
      obtain ⟨rg, hrg, rfl⟩ := h
      obtain ⟨_, rfl⟩ := Change2_inv _ _ _ _ _ _ hrg
      exact Or.inr (Or.inr ⟨hlen, ⟨.Float32Max, [vtrue, vfalse]⟩, rfl, rfl⟩)
    · exact Or.inr (Or.inl (Option.some.inj h).symm)
  · simp only [Option.bind_eq_some] at h
    obtain ⟨mcond, _, isAbs, _, h⟩ := h
    split_ifs at h
    · simp only [noRevisit, Option.map_eq_some'] at h
      obtain ⟨rg, hrg, rfl⟩ := h
      obtain ⟨_, rfl⟩ := Change1_inv _ _ _ _ _ hrg
      exact Or.inr (Or.inr ⟨hlen, ⟨.Float64Abs, [vtrue]⟩, rfl, rfl⟩)
    · simp only [noRevisit, Option.map_eq_some'] at h
      obtain ⟨rg, hrg, rfl⟩ := h
      obtain ⟨_, rfl⟩ := Change2_inv _ _ _ _ _ _ hrg
      exact Or.inr (Or.inr ⟨hlen, ⟨.Float64Min, [vtrue, vfalse]⟩, rfl, rfl⟩)
    · simp only [noRevisit, Option.map_eq_some'] at h
      obtain ⟨rg, hrg, rfl⟩ := h
      obtain ⟨_, rfl⟩ := Change2_inv _ _ _ _ _ _ hrg
      exact Or.inr (Or.inr ⟨hlen, ⟨.Float64Max, [vtrue, vfalse]⟩, rfl, rfl⟩)
    · exact Or.inr (Or.inl (Option.some.inj h).symm)
  · exact Or.inr (Or.inl (Option.some.inj h).symm)

/-- What Reduce returns when it returns at all, on any graph: by the opcode of
the node, the outcomes of the rule it dispatches to. -/
theorem Reduce_inv (M : MachineOperatorBuilder) (g : Graph) (n : NodeId) (out : Outcome)
    (h : Reduce M g n = some out) :
    ((opcode g n = .kEffectPhi ∨ opcode g n = .kPhi) ∧
      ∃ merge, (g n).inputs.getLast? = some merge ∧
        ((∃ v, out = ⟨.Replace v, g, [merge]⟩) ∨ out = ⟨.NoChange, g, []⟩ ∨
          (opcode g n = .kPhi ∧ (g n).inputs.length = 3 ∧
            ∃ nd, isIdiomNode nd = true ∧ out = rewritten g n nd [merge]))) ∨
    (opcode g n = .kSelect ∧
      ((∃ v, out = ⟨.Replace v, g, []⟩) ∨ out = ⟨.NoChange, g, []⟩ ∨
        (3 ≤ (g n).inputs.length ∧
          ∃ nd, isIdiomNode nd = true ∧ out = rewritten g n nd []))) ∨
    (opcode g n ≠ .kEffectPhi ∧ opcode g n ≠ .kPhi ∧ opcode g n ≠ .kSelect ∧
      out = ⟨.NoChange, g, []⟩) := by
  unfold Reduce at h
  split at h
  · rename_i hop
    obtain ⟨merge, hm, hcase⟩ := ReduceEffectPhi_inv g n out h
    refine Or.inl ⟨Or.inl hop, merge, hm, ?_⟩
    rcases hcase with h1 | h1
    · exact Or.inl h1
    · exact Or.inr (Or.inl h1)
  · rename_i hop
    obtain ⟨merge, hm, hcase⟩ := ReducePhi_inv M g n out h
    refine Or.inl ⟨Or.inr hop, merge, hm, ?_⟩
    rcases hcase with h1 | h1 | ⟨h1, h2⟩
    · exact Or.inl h1
    · exact Or.inr (Or.inl h1)
    · exact Or.inr (Or.inr ⟨hop, h1, h2⟩)
  · rename_i hop
    exact Or.inr (Or.inl ⟨hop, ReduceSelect_inv M g n out h⟩)
  · rename_i h1 h2 h3
    exact Or.inr (Or.inr ⟨h1, h2, h3, (Option.some.inj h).symm⟩)

/-! ## Reduce: idempotence, mutation and frame -/

theorem isIdiomNode_opcode (nd : Node) (h : isIdiomNode nd = true) :
    nd.op.opcode ≠ .kEffectPhi ∧ nd.op.opcode ≠ .kPhi ∧ nd.op.opcode ≠ .kSelect ∧
      (nd.inputs.length = 1 ∨ nd.inputs.length = 2) ∧
      nd.op.opcode ∈ [IrOpcode.kFloat32Abs, .kFloat64Abs, .kFloat32Min, .kFloat64Min,
        .kFloat32Max, .kFloat64Max] := by
  obtain ⟨op, inputs⟩ := nd
  unfold isIdiomNode at h
  split at h <;> simp_all [Operator.opcode]

theorem Reduce_other (M : MachineOperatorBuilder) (g : Graph) (n : NodeId)
    (h1 : opcode g n ≠ .kEffectPhi) (h2 : opcode g n ≠ .kPhi) (h3 : opcode g n ≠ .kSelect) :
    Reduce M g n = some ⟨.NoChange, g, []⟩ := by
  unfold Reduce
  split
  · exact absurd (by assumption) h1
  · exact absurd (by assumption) h2
  · exact absurd (by assumption) h3
  · rfl

/-- C11: if Reduce(n) returns Changed, then Reduce(n) on the graph it left
returns NoChange, leaves that graph as it is and issues no revisit request. -/
theorem Reduce_idempotent (M : MachineOperatorBuilder) (g : Graph) (n m : NodeId)
    (out : Outcome) (h : Reduce M g n = some out) (hc : out.reduction = .Changed m) :
    Reduce M out.graph n = some ⟨.NoChange, out.graph, []⟩ := by
  have key : ∀ nd rs, isIdiomNode nd = true →
      Reduce M (rewritten g n nd rs).graph n = some ⟨.NoChange, (rewritten g n nd rs).graph, []⟩ := by
    intro nd rs hnd
    obtain ⟨h1, h2, h3, _⟩ := isIdiomNode_opcode nd hnd
    apply Reduce_other <;> simpa [opcode, rewritten, Graph.set]
  rcases Reduce_inv M g n out h with ⟨_, merge, _, hcase⟩ | ⟨_, hcase⟩ | ⟨_, _, _, rfl⟩
  · rcases hcase with ⟨v, rfl⟩ | rfl | ⟨_, _, nd, hnd, rfl⟩
    · simp at hc
    · simp at hc
    · exact key nd _ hnd
  · rcases hcase with ⟨v, rfl⟩ | rfl | ⟨_, nd, hnd, rfl⟩
    · simp at hc
    · simp at hc
    · exact key nd _ hnd
  · simp at hc

/-- C11 on the Float32 absolute-value diamond. -/
theorem Reduce_idempotent_witness :
    ∃ out, Reduce noCaps absDiamond 0 = some out ∧ out.reduction = .Changed 0 ∧
      Reduce noCaps out.graph 0 = some ⟨.NoChange, out.graph, []⟩ :=
  have hs : (Reduce noCaps absDiamond 0).isSome = true := rfl
  ⟨(Reduce noCaps absDiamond 0).get hs, (Option.some_get hs).symm, rfl,
    Reduce_idempotent noCaps absDiamond 0 0 _ (Option.some_get hs).symm rfl⟩

/-- C12: on a node with at least one operand, Change(n, op, a) returns
Changed(n) and leaves n with operator op and operand list [a]; on a node with
at least two operands, Change(n, op, a, b) returns Changed(n) and leaves n with
operator op and operand list [a, b]; every other node is left as it is. -/
theorem Change_primitives (g : Graph) (n a b : NodeId) (op : Operator) :
    (1 ≤ (g n).inputs.length →
      Change1 g n op a = some (.Changed n, g.set n ⟨op, [a]⟩)) ∧
    (2 ≤ (g n).inputs.length →
      Change2 g n op a b = some (.Changed n, g.set n ⟨op, [a, b]⟩)) ∧
    (g.set n ⟨op, [a]⟩ n = ⟨op, [a]⟩ ∧ g.set n ⟨op, [a, b]⟩ n = ⟨op, [a, b]⟩) ∧
    (∀ m nd, m ≠ n → g.set n nd m = g m) :=
  ⟨Change1_eq g n a op, Change2_eq g n a b op,
    ⟨Graph.set_same g n _, Graph.set_same g n _⟩,
    fun m nd hm => Graph.set_other g n m nd hm⟩

/-- C12 on the Phi of the Float32 absolute-value diamond, which has three
operands. -/
theorem Change_primitives_witness :
    (1 ≤ (absDiamond 0).inputs.length ∧ 2 ≤ (absDiamond 0).inputs.length) ∧
      Change1 absDiamond 0 .Float32Abs 1
        = some (.Changed 0, absDiamond.set 0 ⟨.Float32Abs, [1]⟩) ∧
      Change2 absDiamond 0 .Float32Min 1 8
        = some (.Changed 0, absDiamond.set 0 ⟨.Float32Min, [1, 8]⟩) :=
  ⟨by decide, (Change_primitives absDiamond 0 1 8 .Float32Abs).1 (by decide),
    (Change_primitives absDiamond 0 1 8 .Float32Min).2.1 (by decide)⟩

/-- C13: when Reduce(n) returns NoChange or Replace, the graph afterwards is
the graph before; when it returns Changed(m), m is n and every node other than
n is afterwards what it was before. -/
theorem Reduce_frame (M : MachineOperatorBuilder) (g : Graph) (n : NodeId) (out : Outcome)
    (h : Reduce M g n = some out) :
    ((out.reduction = .NoChange ∨ ∃ r, out.reduction = .Replace r) → out.graph = g) ∧
    (∀ m, out.reduction = .Changed m → m = n ∧ ∀ k, k ≠ n → out.graph k = g k) := by
  have key : ∀ nd rs,
      (((rewritten g n nd rs).reduction = .NoChange ∨
          ∃ r, (rewritten g n nd rs).reduction = .Replace r) →
        (rewritten g n nd rs).graph = g) ∧
      (∀ m, (rewritten g n nd rs).reduction = .Changed m →
        m = n ∧ ∀ k, k ≠ n → (rewritten g n nd rs).graph k = g k) := by
    intro nd rs
    refine ⟨fun h => ?_, fun m hm => ⟨?_, fun k hk => ?_⟩⟩
    · simp [rewritten] at h
    · simpa [rewritten] using hm.symm
    · simp [rewritten, Graph.set, hk]
  rcases Reduce_inv M g n out h with ⟨_, merge, _, hcase⟩ | ⟨_, hcase⟩ | ⟨_, _, _, rfl⟩
  · rcases hcase with ⟨v, rfl⟩ | rfl | ⟨_, _, nd, _, rfl⟩
    · simp
    · simp
    · exact key nd _
  · rcases hcase with ⟨v, rfl⟩ | rfl | ⟨_, nd, _, rfl⟩
    · simp
    · simp
    · exact key nd _
  · simp

/-- C13 on the Float32 absolute-value diamond, where the Phi is rewritten. -/
theorem Reduce_frame_witness :
    ∃ out, Reduce noCaps absDiamond 0 = some out ∧
      ((out.reduction = .NoChange ∨ ∃ r, out.reduction = .Replace r) →
        out.graph = absDiamond) ∧
      (∀ m, out.reduction = .Changed m → m = 0 ∧ ∀ k, k ≠ 0 → out.graph k = absDiamond k) :=
  have hs : (Reduce noCaps absDiamond 0).isSome = true := rfl
  ⟨(Reduce noCaps absDiamond 0).get hs, (Option.some_get hs).symm,
    Reduce_frame noCaps absDiamond 0 _ (Option.some_get hs).symm⟩

/-! ## Reduce: totality, revisit requests, dispatch and simplification -/

theorem inputs_split (l : List NodeId) (h : 2 ≤ l.length) :
    ∃ v0 vs merge, l = v0 :: vs ++ [merge] ∧ l.getLast? = some merge ∧ l.head? = some v0 := by
  match l, h with
  | v0 :: x :: tl, _ =>
    have hne : x :: tl ≠ [] := by simp
    refine ⟨v0, (x :: tl).dropLast, (x :: tl).getLast hne, ?_, ?_, rfl⟩
    · rw [List.cons_append, List.dropLast_append_getLast hne]
    · rw [List.getLast?_cons_cons, List.getLast?_eq_getLast _ hne]

/-- What the contracts on a Phi or EffectPhi give: its operand list and the
operand count of its merge. -/
theorem TargetOk_phi (g : Graph) (n : NodeId) (ht : TargetOk g n = true)
    (hop : opcode g n = .kEffectPhi ∨ opcode g n = .kPhi) :
    ∃ v0 vs merge, (g n).inputs = v0 :: vs ++ [merge] ∧
      (g n).inputs.getLast? = some merge ∧
      (g merge).inputs.length = vs.length + 1 := by
  unfold TargetOk at ht
  have ht2 : (match (g n).inputs.getLast?, (g n).inputs.head? with
     | some merge, some v0 =>
       decide (2 ≤ (g n).inputs.length) && IsMergeOpcode (opcode g merge) &&
         decide ((g merge).inputs.length + 1 = (g n).inputs.length) &&
         decide (v0 ≠ n) &&
         (((g n).inputs.dropLast.all fun v => decide (v ≠ n)) ||
           decide (opcode g merge = .kLoop))
     | _, _ => false) = true := by
    rcases hop with h | h <;> simpa [h] using ht
  split at ht2
  · rename_i merge v0 hlast hhead
    simp only [Bool.and_eq_true, decide_eq_true_eq] at ht2
    obtain ⟨⟨⟨⟨hlen, _⟩, hm⟩, _⟩, _⟩ := ht2
    obtain ⟨w0, vs, mg, hin, hl, _⟩ := inputs_split (g n).inputs hlen
    rw [hl] at hlast
    cases Option.some.inj hlast
    refine ⟨w0, vs, _, hin, hl, ?_⟩
    rw [hin] at hm
    simp at hm
    omega
  · simp at ht2

/-- On a well-formed graph Reduce returns on every node that meets the
contracts of the reducer. -/
theorem Reduce_total (M : MachineOperatorBuilder) (g : Graph) (n : NodeId)
    (hwf : WellFormed g) (ht : TargetOk g n = true) :
    ∃ out, Reduce M g n = some out := by
  by_cases he : opcode g n = .kEffectPhi
  · obtain ⟨v0, vs, merge, hin, _, _⟩ := TargetOk_phi g n ht (Or.inl he)
    have hscan := scanInputs_operands g n v0 merge vs hin
    have hmerge := InputAt_merge g n v0 merge vs hin
    have hzero := InputAt_zero g n v0 (vs ++ [merge]) (by simpa using hin)
    simp only [Reduce, he, ReduceEffectPhi, hmerge, hzero, hscan, Option.bind_eq_bind,
      Option.some_bind]
    split <;> exact ⟨_, rfl⟩
  · by_cases hp : opcode g n = .kPhi
    · obtain ⟨v0, vs, merge, hin, _, hm⟩ := TargetOk_phi g n ht (Or.inr hp)
      have heq := ReducePhi_eq M g n v0 merge vs hin
      simp only [Reduce, hp]
      rw [heq]
      by_cases hk : vs.length = 1
      · obtain ⟨c, rfl⟩ : ∃ c, vs = [c] := by
          match vs, hk with
          | [c], _ => exact ⟨c, rfl⟩
        obtain ⟨p, q, hpq⟩ : ∃ p q, (g merge).inputs = [p, q] := by
          match hi : (g merge).inputs, hm with
          | [p, q], _ => exact ⟨p, q, rfl⟩
        rw [if_pos hk]
        rcases ReducePhiIdioms_cases M g n v0 c merge p q hwf (by simpa using hin) hpq with
          h | ⟨_, _, _, _, _, _, h⟩
        · rw [h]; exact ⟨_, rfl⟩
        · rw [h]; exact ⟨_, rfl⟩
      · rw [if_neg hk]; exact ⟨_, rfl⟩
    · by_cases hs : opcode g n = .kSelect
      · have hlen : (g n).inputs.length = 3 := by
          simpa [TargetOk, hs] using ht
        obtain ⟨cond, vt, vf, hin⟩ : ∃ cond vt vf, (g n).inputs = [cond, vt, vf] := by
          match hi : (g n).inputs, hlen with
          | [a, b, c], _ => exact ⟨a, b, c, rfl⟩
        simp only [Reduce, hs]
        by_cases hvv : vt = vf
        · exact ⟨_, by simp [ReduceSelect, InputAt, hin, hvv]; rfl⟩
        · by_cases hh : opcode g cond = .kHeapConstant
          · obtain ⟨b, hb⟩ := (opcode_eq_HeapConstant g cond).mp hh
            exact ⟨_, by simp [ReduceSelect, InputAt, hin, hvv, hh, HeapObjectBooleanValue, hb]; rfl⟩
          · exact ⟨_, ReduceSelect_eq M g n cond vt vf hin hvv hh (hwf cond) (fun _ => hwf vf)⟩
      · exact ⟨_, Reduce_other M g n he hp hs⟩

/-- C14: on a well-formed graph and a node that meets the contracts of the
reducer, Reduce returns, and the revisit requests it issued are the one-element
list of the trailing operand of the node, as it was before the call, when the
node is a Phi or an EffectPhi and the reduction is Replace or Changed, and the
empty list in every other case. -/
theorem Reduce_revisits (M : MachineOperatorBuilder) (g : Graph) (n : NodeId)
    (hwf : WellFormed g) (ht : TargetOk g n = true) :
    ∃ out, Reduce M g n = some out ∧
      out.revisits =
        if (opcode g n = .kPhi ∨ opcode g n = .kEffectPhi) ∧ out.reduction ≠ .NoChange then
          (g n).inputs.getLast?.toList
        else [] := by
  obtain ⟨out, h⟩ := Reduce_total M g n hwf ht
  refine ⟨out, h, ?_⟩
  rcases Reduce_inv M g n out h with ⟨hop, merge, hm, hcase⟩ | ⟨hop, hcase⟩ | ⟨h1, h2, _, rfl⟩
  · have hop2 : opcode g n = .kPhi ∨ opcode g n = .kEffectPhi := hop.symm
    rcases hcase with ⟨v, rfl⟩ | rfl | ⟨_, _, nd, _, rfl⟩
    · simp [hop2, hm]
    · simp
    · simp [hop2, hm, rewritten]
  · have hn : ¬ (opcode g n = .kPhi ∨ opcode g n = .kEffectPhi) := by
      rw [hop]; decide
    rcases hcase with ⟨v, rfl⟩ | rfl | ⟨_, nd, _, rfl⟩
    · simp [hn]
    · simp
    · simp [hn, rewritten]
  · simp

/-- C14 on the Float32 absolute-value diamond. -/
theorem Reduce_revisits_witness :
    WellFormed absDiamond ∧ TargetOk absDiamond 0 = true ∧
      ∃ out, Reduce allCaps absDiamond 0 = some out ∧
        out.revisits =
          if (opcode absDiamond 0 = .kPhi ∨ opcode absDiamond 0 = .kEffectPhi) ∧
              out.reduction ≠ .NoChange then
            (absDiamond 0).inputs.getLast?.toList
          else [] :=
  ⟨wellFormed_ofList _ (by decide), by decide,
    Reduce_revisits allCaps absDiamond 0 (wellFormed_ofList _ (by decide)) (by decide)⟩

/-- C15: Reduce is ReduceEffectPhi on an EffectPhi, ReducePhi on a Phi and
ReduceSelect on a Select; on a node of any other opcode it returns NoChange,
leaves the graph as it is and issues no revisit request. -/
theorem Reduce_dispatch (M : MachineOperatorBuilder) (g : Graph) (n : NodeId) :
    (opcode g n = .kEffectPhi → Reduce M g n = ReduceEffectPhi g n) ∧
    (opcode g n = .kPhi → Reduce M g n = ReducePhi M g n) ∧
    (opcode g n = .kSelect → Reduce M g n = ReduceSelect M g n) ∧
    (opcode g n ≠ .kEffectPhi → opcode g n ≠ .kPhi → opcode g n ≠ .kSelect →
      Reduce M g n = some ⟨.NoChange, g, []⟩) := by
  refine ⟨fun h => ?_, fun h => ?_, fun h => ?_, Reduce_other M g n⟩ <;>
    simp only [Reduce, h]

/-- C15 on the Phi, the Branch and the other nodes of one graph. -/
theorem Reduce_dispatch_witness :
    opcode absDiamond 0 = .kPhi ∧
      Reduce allCaps absDiamond 0 = ReducePhi allCaps absDiamond 0 ∧
      opcode absDiamond 5 = .kBranch ∧
      Reduce allCaps absDiamond 5 = some ⟨.NoChange, absDiamond, []⟩ :=
  ⟨rfl, (Reduce_dispatch allCaps absDiamond 0).2.1 rfl, rfl,
    (Reduce_dispatch allCaps absDiamond 5).2.2.2 (by decide) (by decide) (by decide)⟩

/-- C19: if Reduce(n) returns Changed(m) on a node n that has exactly three
operands when it is a Select, then m is n; n was a Phi or a Select with exactly
three operands; afterwards its opcode is one of Float32Abs, Float64Abs,
Float32Min, Float64Min, Float32Max, Float64Max, so none of Phi, EffectPhi and
Select, and it has one or two operands, fewer than before. -/
theorem Reduce_simplifies (M : MachineOperatorBuilder) (g : Graph) (n m : NodeId)
    (out : Outcome) (hsel : opcode g n = .kSelect → (g n).inputs.length = 3)
    (h : Reduce M g n = some out) (hc : out.reduction = .Changed m) :
    m = n ∧ (opcode g n = .kPhi ∨ opcode g n = .kSelect) ∧ (g n).inputs.length = 3 ∧
      opcode out.graph n ∈ [IrOpcode.kFloat32Abs, .kFloat64Abs, .kFloat32Min, .kFloat64Min,
        .kFloat32Max, .kFloat64Max] ∧
      opcode out.graph n ≠ .kPhi ∧ opcode out.graph n ≠ .kEffectPhi ∧
      opcode out.graph n ≠ .kSelect ∧
      ((out.graph n).inputs.length = 1 ∨ (out.graph n).inputs.length = 2) ∧
      (out.graph n).inputs.length < (g n).inputs.length := by
  have key : ∀ nd rs, isIdiomNode nd = true → (g n).inputs.length = 3 →
      (rewritten g n nd rs).reduction = .Changed m →
      m = n ∧ opcode (rewritten g n nd rs).graph n ∈ [IrOpcode.kFloat32Abs, .kFloat64Abs,
        .kFloat32Min, .kFloat64Min, .kFloat32Max, .kFloat64Max] ∧
      opcode (rewritten g n nd rs).graph n ≠ .kPhi ∧
      opcode (rewritten g n nd rs).graph n ≠ .kEffectPhi ∧
      opcode (rewritten g n nd rs).graph n ≠ .kSelect ∧
      (((rewritten g n nd rs).graph n).inputs.length = 1 ∨
        ((rewritten g n nd rs).graph n).inputs.length = 2) ∧
      ((rewritten g n nd rs).graph n).inputs.length < (g n).inputs.length := by
    intro nd rs hnd hlen hm
    obtain ⟨h1, h2, h3, h4, h5⟩ := isIdiomNode_opcode nd hnd
    have hg : (rewritten g n nd rs).graph n = nd := by simp [rewritten, Graph.set]
    have hmn : m = n := by simpa [rewritten] using hm.symm
    rw [hlen]
    unfold opcode
    rw [hg]
    refine ⟨hmn, h5, h2, h1, h3, h4, ?_⟩
    rcases h4 with h | h <;> omega
  rcases Reduce_inv M g n out h with ⟨_, merge, _, hcase⟩ | ⟨hop, hcase⟩ | ⟨_, _, _, rfl⟩
  · rcases hcase with ⟨v, rfl⟩ | rfl | ⟨hp, hlen, nd, hnd, rfl⟩
    · simp at hc
    · simp at hc
    · obtain ⟨k1, k2⟩ := key nd _ hnd hlen hc
      exact ⟨k1, Or.inl hp, hlen, k2⟩
  · rcases hcase with ⟨v, rfl⟩ | rfl | ⟨_, nd, hnd, rfl⟩
    · simp at hc
    · simp at hc
    · obtain ⟨k1, k2⟩ := key nd _ hnd (hsel hop) hc
      exact ⟨k1, Or.inr hop, hsel hop, k2⟩
  · simp at hc

/-- C19 on the Float32 absolute-value diamond: three operands before, one
after. -/
theorem Reduce_simplifies_witness :
    ∃ out, Reduce noCaps absDiamond 0 = some out ∧ out.reduction = .Changed 0 ∧
      opcode absDiamond 0 = .kPhi ∧ (absDiamond 0).inputs.length = 3 ∧
      opcode out.graph 0 = .kFloat32Abs ∧ (out.graph 0).inputs.length = 1 :=
  have hs : (Reduce noCaps absDiamond 0).isSome = true := rfl
  have hw := Reduce_simplifies noCaps absDiamond 0 0 ((Reduce noCaps absDiamond 0).get hs)
    (by decide) (Option.some_get hs).symm rfl
  ⟨(Reduce noCaps absDiamond 0).get hs, (Option.some_get hs).symm, rfl, rfl, hw.2.2.1, rfl,
    rfl⟩

/-! ## ReducePhi: the fallback outside the idiom shape -/

theorem opcode_eq_Branch (g : Graph) (m : NodeId) :
    opcode g m = .kBranch ↔ (g m).op = .Branch := by
  unfold opcode; cases (g m).op <;> simp [Operator.opcode]

theorem condIdiom_some_op (M : MachineOperatorBuilder) (g : Graph) (cond vt vf : NodeId)
    (nd : Node) (h : condIdiom M g cond vt vf = some nd) :
    (g cond).op = .Float32LessThan ∨ (g cond).op = .Float64LessThan := by
  unfold condIdiom at h
  split at h
  · left; assumption
  · right; assumption
  · simp at h

/-- The idiom detection of a two-valued Phi on a well-formed graph rewrites
the node only on the condition of the diamond its merge closes. -/
theorem ReducePhiIdioms_cases_cond (M : MachineOperatorBuilder) (g : Graph)
    (n a c merge p q : NodeId) (hwf : WellFormed g)
    (hin : (g n).inputs = [a, c, merge]) (hm : (g merge).inputs = [p, q]) :
    ReducePhiIdioms M g n merge = some none ∨
      ∃ cond vt vf nd, diamondCond g merge = some cond ∧
        condIdiom M g cond vt vf = some nd ∧
        ReducePhiIdioms M g n merge = some (some (rewritten g n nd [merge])) := by
  by_cases hp : opcode g p = .kIfTrue
  · by_cases hq : opcode g q = .kIfFalse
    · obtain ⟨b1, hb1, hbr⟩ := proj_inputs g p (hwf p) (Or.inl hp)
      obtain ⟨b2, hb2, _⟩ := proj_inputs g q (hwf q) (Or.inr hq)
      by_cases hbb : b1 = b2
      · subst hbb
        obtain ⟨cond, ctl, hcond⟩ := branch_inputs g b1 (hwf b1) hbr
        have hpo := (opcode_eq_IfTrue g p).mp hp
        have hqo := (opcode_eq_IfFalse g q).mp hq
        have h := ReducePhiIdioms_diamond M g n a c merge p q b1 cond [] [] [ctl] hin hm
          hpo hb1 hqo hb2 hcond (hwf cond) (fun _ => hwf c)
        have hd : diamondCond g merge = some cond := by
          simp [diamondCond, branchCond, hm, hpo, hqo, hb1, hb2,
            (opcode_eq_Branch g b1).mp hbr, hcond]
        cases hci : condIdiom M g cond a c with
        | none => left; simpa [hci] using h
        | some nd =>
          right
          exact ⟨cond, a, c, nd, hd, hci, by simpa [hci] using h⟩
      · left
        simp only [ReducePhiIdioms, InputAt, hin, hm]
        simp [hp, hq, hb1, hb2, hbb]
    · left
      simp only [ReducePhiIdioms, InputAt, hin, hm]
      simp [hp, hq]
  · by_cases hq : opcode g q = .kIfTrue ∧ opcode g p = .kIfFalse
    · obtain ⟨b1, hb1, hbr⟩ := proj_inputs g q (hwf q) (Or.inl hq.1)
      obtain ⟨b2, hb2, _⟩ := proj_inputs g p (hwf p) (Or.inr hq.2)
      by_cases hbb : b1 = b2
      · subst hbb
        obtain ⟨cond, ctl, hcond⟩ := branch_inputs g b1 (hwf b1) hbr
        have hqo := (opcode_eq_IfTrue g q).mp hq.1
        have hpo := (opcode_eq_IfFalse g p).mp hq.2
        have h := ReducePhiIdioms_diamond_swapped M g n a c merge q p b1 cond [] [] [ctl] hin hm
          hqo hb1 hpo hb2 hcond (hwf cond) (fun _ => hwf a)
        have hd : diamondCond g merge = some cond := by
          simp [diamondCond, branchCond, hm, hpo, hqo, hb1, hb2,
            (opcode_eq_Branch g b1).mp hbr, hcond]
        cases hci : condIdiom M g cond c a with
        | none => left; simpa [hci] using h
        | some nd =>
          right
          exact ⟨cond, c, a, nd, hd, hci, by simpa [hci] using h⟩
      · left
        simp only [ReducePhiIdioms, InputAt, hin, hm]
        simp [hp, hq, hb1, hb2, hbb]
    · left
      simp only [ReducePhiIdioms, InputAt, hin, hm]
      simp only [not_and] at hq
      simp [hp]
      intro h1 h2
      exact absurd h2 (hq h1)

/-- C17: on a well-formed graph, a Phi with operands v0 :: vs ++ [merge] whose
merge has as many operands as the Phi has value operands, and to which idiom
detection is not applicable (it has not exactly two value operands, or its merge
does not close a diamond of an IfTrue and an IfFalse of one Branch, or the
condition of that Branch is neither a Float32LessThan nor a Float64LessThan), is
reduced by ReducePhi exactly as by ReduceEffectPhi: Replace(v0) with a revisit
request for merge when every operand in vs is the node itself or v0, NoChange
with no revisit request otherwise; the graph is left as it is. -/
theorem ReducePhi_fallback (M : MachineOperatorBuilder) (g : Graph) (n v0 merge : NodeId)
    (vs : List NodeId) (hwf : WellFormed g)
    (hin : (g n).inputs = v0 :: vs ++ [merge])
    (hmerge : (g merge).inputs.length = (v0 :: vs).length)
    (hna : idiomApplicable g n merge = false) :
    ReducePhi M g n = ReduceEffectPhi g n ∧
      ReducePhi M g n = some
        (if ∀ v ∈ vs, v = n ∨ v = v0 then ⟨.Replace v0, g, [merge]⟩
         else ⟨.NoChange, g, []⟩) := by
  have hscan := scanInputs_operands g n v0 merge vs hin
  have hm0 := InputAt_merge g n v0 merge vs hin
  have hzero := InputAt_zero g n v0 (vs ++ [merge]) (by simpa using hin)
  have hall : ((vs.all fun e => e == n || e == v0) = true) ↔ ∀ v ∈ vs, v = n ∨ v = v0 := by
    simp [List.all_eq_true]
  have heff : ReduceEffectPhi g n = some
      (if ∀ v ∈ vs, v = n ∨ v = v0 then ⟨.Replace v0, g, [merge]⟩
       else ⟨.NoChange, g, []⟩) := by
    simp only [ReduceEffectPhi, hm0, hzero, hscan, Option.bind_eq_bind, Option.some_bind, hall]
    split <;> rfl
  have hphi : ReducePhi M g n = some
      (if ∀ v ∈ vs, v = n ∨ v = v0 then ⟨.Replace v0, g, [merge]⟩
       else ⟨.NoChange, g, []⟩) := by
    rw [ReducePhi_eq M g n v0 merge vs hin]
    simp only [hall]
    by_cases hk : vs.length = 1
    · obtain ⟨c, rfl⟩ : ∃ c, vs = [c] := by
        match vs, hk with
        | [c], _ => exact ⟨c, rfl⟩
      obtain ⟨p, q, hpq⟩ : ∃ p q, (g merge).inputs = [p, q] := by
        match hi : (g merge).inputs, hmerge with
        | [p, q], _ => exact ⟨p, q, rfl⟩
      rw [if_pos hk]
      rcases ReducePhiIdioms_cases_cond M g n v0 c merge p q hwf (by simpa using hin) hpq with
        h | ⟨cond, vt, vf, nd, hd, hci, _⟩
      · rw [h]; rfl
      · exfalso
        have hop := condIdiom_some_op M g cond vt vf nd hci
        have hlen : (g n).inputs.length = 3 := by simp [hin]
        simp only [idiomApplicable, hlen, hd, decide_True, Bool.true_and, Bool.or_eq_false_iff,
          decide_eq_false_iff_not] at hna
        rcases hop with h | h
        · exact hna.1 h
        · exact hna.2 h
    · rw [if_neg hk]; rfl
  exact ⟨hphi.trans heff.symm, hphi⟩

/-- C17 on a diamond whose condition is no comparison, every capability
present. -/
theorem ReducePhi_fallback_witness :
    WellFormed plainDiamond ∧ (plainDiamond 0).inputs = 1 :: [1] ++ [2] ∧
      (plainDiamond 2).inputs.length = (1 :: [1]).length ∧
      idiomApplicable plainDiamond 0 2 = false ∧
      ReducePhi allCaps plainDiamond 0 = ReduceEffectPhi plainDiamond 0 ∧
      ReducePhi allCaps plainDiamond 0 = some
        (if ∀ v ∈ [1], v = 0 ∨ v = 1 then ⟨.Replace 1, plainDiamond, [2]⟩
         else ⟨.NoChange, plainDiamond, []⟩) :=
  ⟨wellFormed_ofList _ (by decide), rfl, rfl, by decide,
    ReducePhi_fallback allCaps plainDiamond 0 1 2 [1] (wellFormed_ofList _ (by decide)) rfl rfl
      (by decide)⟩


/-! ## Absent capabilities and the priority of the absolute-value shape -/

theorem idiom_none_of_no_caps (M : MachineOperatorBuilder) (w : Width) (g : Graph)
    (l r vt vf : NodeId) (hmin : M.HasMin w = false) (hmax : M.HasMax w = false)
    (habs : AbsShape w g l r vt vf = false) : idiom M w g l r vt vf = none := by
  simp [idiom, habs, MinShape, MaxShape, hmin, hmax]

/-- C18: at a width W whose minimum and maximum capabilities are both absent,
with a condition W-LessThan(l, r) on which the absolute-value shape does not
match the arms: a Phi with operands [a, c, merge] on the diamond of a Branch on
that condition, in either order of the projections, is not rewritten; ReducePhi
returns Replace(a) with a revisit request for merge when c is the node itself or
a, and NoChange otherwise, computed on the operand order [a, c] of the node; and
a Select with different arms on that condition is reduced to NoChange.  The
graph is left as it is in each case. -/
theorem no_min_max (M : MachineOperatorBuilder) (w : Width) (g : Graph)
    (cond l r : NodeId) (hmin : M.HasMin w = false) (hmax : M.HasMax w = false)
    (hc : (g cond).op = w.LessThan) (hci : (g cond).inputs = [l, r]) :
    (∀ n a c merge t f b vt vf tlb,
      (g n).inputs = [a, c, merge] →
      (((g merge).inputs = [t, f] ∧ vt = a ∧ vf = c) ∨
        ((g merge).inputs = [f, t] ∧ vt = c ∧ vf = a)) →
      (g t).op = .IfTrue → (g t).inputs = [b] →
      (g f).op = .IfFalse → (g f).inputs = [b] →
      (g b).inputs = cond :: tlb →
      AbsShape w g l r vt vf = false → NodeOk g vf = true →
      ReducePhi M g n = some
        (if c = n ∨ c = a then ⟨.Replace a, g, [merge]⟩ else ⟨.NoChange, g, []⟩)) ∧
    (∀ n vt vf,
      (g n).inputs = [cond, vt, vf] → vt ≠ vf →
      AbsShape w g l r vt vf = false → NodeOk g vf = true →
      ReduceSelect M g n = some ⟨.NoChange, g, []⟩) := by
  have hok := NodeOk_lessThan w g cond l r hc hci
  constructor
  · intro n a c merge t f b vt vf tlb hin hm ht hti hf hfi hb habs hvf
    have hnone : condIdiom M g cond vt vf = none := by
      rw [condIdiom_lessThan M w g cond l r vt vf [] hc hci]
      exact idiom_none_of_no_caps M w g l r vt vf hmin hmax habs
    rcases hm with ⟨hm, rfl, rfl⟩ | ⟨hm, rfl, rfl⟩
    · rw [ReducePhi_diamond M g n vt vf merge t f b cond [] [] tlb hin hm ht hti hf hfi hb hok
        (fun _ => hvf), hnone]
    · rw [ReducePhi_diamond_swapped M g n vf vt merge t f b cond [] [] tlb hin hm ht hti hf hfi
        hb hok (fun _ => hvf), hnone]
  · intro n vt vf hin hne habs hvf
    have hheap : opcode g cond ≠ .kHeapConstant := by
      cases w <;> simp [opcode, hc, Width.LessThan, Operator.opcode]
    rw [ReduceSelect_eq M g n cond vt vf hin hne hheap hok (fun _ => hvf),
      condIdiom_lessThan M w g cond l r vt vf [] hc hci,
      idiom_none_of_no_caps M w g l r vt vf hmin hmax habs]

/-- C18 on the Float64 minimum diamond and a Select on its condition, with
no capability present. -/
theorem no_min_max_witness :
    noCaps.HasMin .Float64 = false ∧ noCaps.HasMax .Float64 = false ∧
      (minDiamond 6).op = Width.Float64.LessThan ∧ (minDiamond 6).inputs = [1, 8] ∧
      AbsShape .Float64 minDiamond 1 8 1 8 = false ∧
      ReducePhi noCaps minDiamond 0 = some
        (if (8 : NodeId) = 0 ∨ (8 : NodeId) = 1 then ⟨.Replace 1, minDiamond, [2]⟩
         else ⟨.NoChange, minDiamond, []⟩) :=
  ⟨rfl, rfl, rfl, rfl, by decide,
    (no_min_max noCaps .Float64 minDiamond 6 1 8 rfl rfl rfl rfl).1 0 1 8 2 3 4 5 1 8 [7] rfl
      (Or.inl ⟨rfl, rfl, rfl⟩) rfl rfl rfl rfl rfl (by decide) (by decide)⟩

theorem Float32Is0_opcode (g : Graph) (m : NodeId) (h : Float32Is0 g m = true) :
    opcode g m = .kFloat32Constant := by
  unfold Float32Is0 at h
  unfold opcode
  split at h
  · rename_i bits hop; rw [hop]; rfl
  · simp at h

theorem Float64Is0_opcode (g : Graph) (m : NodeId) (h : Float64Is0 g m = true) :
    opcode g m = .kFloat64Constant := by
  unfold Float64Is0 at h
  unfold opcode
  split at h
  · rename_i bits hop; rw [hop]; rfl
  · simp at h

/-- The absolute-value test fails on the minimum shape and on the maximum
shape: a constant node is not a Sub node. -/
theorem Float32AbsMatch_false (g : Graph) (mcond : BinopMatcher) (vtrue vfalse : NodeId)
    (h : (mcond.left = vtrue ∧ mcond.right = vfalse) ∨
      (mcond.left = vfalse ∧ mcond.right = vtrue)) :
    Float32AbsMatch g mcond vtrue vfalse = some false := by
  unfold Float32AbsMatch
  rw [if_neg]
  rintro ⟨h0, hr, hs⟩
  have hk := Float32Is0_opcode g _ h0
  rcases h with ⟨h1, h2⟩ | ⟨h1, _⟩
  · rw [h1, ← hr, h2, hs] at hk
    exact absurd hk (by decide)
  · rw [h1, hs] at hk
    exact absurd hk (by decide)

theorem Float64AbsMatch_false (g : Graph) (mcond : BinopMatcher) (vtrue vfalse : NodeId)
    (h : (mcond.left = vtrue ∧ mcond.right = vfalse) ∨
      (mcond.left = vfalse ∧ mcond.right = vtrue)) :
    Float64AbsMatch g mcond vtrue vfalse = some false := by
  unfold Float64AbsMatch
  rw [if_neg]
  rintro ⟨h0, hr, hs⟩
  have hk := Float64Is0_opcode g _ h0
  rcases h with ⟨h1, h2⟩ | ⟨h1, _⟩
  · rw [h1, ← hr, h2, hs] at hk
    exact absurd hk (by decide)
  · rw [h1, hs] at hk
    exact absurd hk (by decide)

theorem ReducePhiFloat32AbsLast_eq (M : MachineOperatorBuilder) (g : Graph)
    (node merge cond vtrue vfalse : NodeId) :
    ReducePhiFloat32AbsLast M g node merge cond vtrue vfalse
      = ReducePhiFloat32 M g node merge cond vtrue vfalse := by
  unfold ReducePhiFloat32AbsLast ReducePhiFloat32
  cases hm : BinopMatcher.mk2 g cond with
  | none => rfl
  | some mcond =>
    simp only [Option.bind_eq_bind, Option.some_bind]
    by_cases h1 : mcond.left = vtrue ∧ mcond.right = vfalse ∧ M.HasFloat32Min = true
    · rw [if_pos h1, Float32AbsMatch_false g mcond vtrue vfalse (Or.inl ⟨h1.1, h1.2.1⟩)]
      simp [h1]
    · rw [if_neg h1]
      by_cases h2 : mcond.left = vfalse ∧ mcond.right = vtrue ∧ M.HasFloat32Max = true
      · rw [if_pos h2, Float32AbsMatch_false g mcond vtrue vfalse (Or.inr ⟨h2.1, h2.2.1⟩)]
        simp only [Option.some_bind, Bool.false_eq_true, if_false]
        rw [if_neg h1, if_pos h2]
      · rw [if_neg h2]
        cases Float32AbsMatch g mcond vtrue vfalse with
        | none => rfl
        | some isAbs => cases isAbs <;> simp [h1, h2]

theorem ReducePhiFloat64AbsLast_eq (M : MachineOperatorBuilder) (g : Graph)
    (node merge cond vtrue vfalse : NodeId) :
    ReducePhiFloat64AbsLast M g node merge cond vtrue vfalse
      = ReducePhiFloat64 M g node merge cond vtrue vfalse := by
  unfold ReducePhiFloat64AbsLast ReducePhiFloat64
  cases hm : BinopMatcher.mk2 g cond with
  | none => rfl
  | some mcond =>
    simp only [Option.bind_eq_bind, Option.some_bind]
    by_cases h1 : mcond.left = vtrue ∧ mcond.right = vfalse ∧ M.HasFloat64Min = true
    · rw [if_pos h1, Float64AbsMatch_false g mcond vtrue vfalse (Or.inl ⟨h1.1, h1.2.1⟩)]
      simp [h1]
    · rw [if_neg h1]
      by_cases h2 : mcond.left = vfalse ∧ mcond.right = vtrue ∧ M.HasFloat64Max = true
      · rw [if_pos h2, Float64AbsMatch_false g mcond vtrue vfalse (Or.inr ⟨h2.1, h2.2.1⟩)]
        simp only [Option.some_bind, Bool.false_eq_true, if_false]
        rw [if_neg h1, if_pos h2]
      · rw [if_neg h2]
        cases Float64AbsMatch g mcond vtrue vfalse with
        | none => rfl
        | some isAbs => cases isAbs <;> simp [h1, h2]

theorem ReducePhiAbsLast_eq (M : MachineOperatorBuilder) (g : Graph) (n : NodeId) :
    ReducePhiAbsLast M g n = ReducePhi M g n := by
  have h32 : ReducePhiFloat32AbsLast = ReducePhiFloat32 := by
    funext M g node merge cond vtrue vfalse
    exact ReducePhiFloat32AbsLast_eq M g node merge cond vtrue vfalse
  have h64 : ReducePhiFloat64AbsLast = ReducePhiFloat64 := by
    funext M g node merge cond vtrue vfalse
    exact ReducePhiFloat64AbsLast_eq M g node merge cond vtrue vfalse
  have hid : ReducePhiIdiomsAbsLast = ReducePhiIdioms := by
    funext M g node merge
    unfold ReducePhiIdiomsAbsLast ReducePhiIdioms
    rw [h32, h64]
  unfold ReducePhiAbsLast ReducePhi
  rw [hid]

theorem ReduceSelectAbsLast_eq (M : MachineOperatorBuilder) (g : Graph) (n : NodeId) :
    ReduceSelectAbsLast M g n = ReduceSelect M g n := by
  unfold ReduceSelectAbsLast ReduceSelect
  cases InputAt g n 0 with
  | none => rfl
  | some cond =>
  cases InputAt g n 1 with
  | none => rfl
  | some vtrue =>
  cases InputAt g n 2 with
  | none => rfl
  | some vfalse =>
  simp only [Option.bind_eq_bind, Option.some_bind]
  by_cases hv : vtrue = vfalse
  · simp [hv]
  · rw [if_neg hv, if_neg hv]
    by_cases hh : opcode g cond = .kHeapConstant
    · rw [if_pos hh, if_pos hh]
    · rw [if_neg hh, if_neg hh]
      by_cases h32 : opcode g cond = .kFloat32LessThan
      · rw [if_pos h32, if_pos h32]
        unfold ReduceSelectFloat32AbsLast
        cases hm : BinopMatcher.mk2 g cond with
        | none => rfl
        | some mcond =>
          simp only [Option.bind_eq_bind, Option.some_bind]
          by_cases h1 : mcond.left = vtrue ∧ mcond.right = vfalse ∧ M.HasFloat32Min = true
          · rw [if_pos h1, Float32AbsMatch_false g mcond vtrue vfalse (Or.inl ⟨h1.1, h1.2.1⟩)]
            simp [h1]
          · rw [if_neg h1]
            by_cases h2 : mcond.left = vfalse ∧ mcond.right = vtrue ∧ M.HasFloat32Max = true
            · rw [if_pos h2,
                Float32AbsMatch_false g mcond vtrue vfalse (Or.inr ⟨h2.1, h2.2.1⟩)]
              simp only [Option.some_bind, Bool.false_eq_true, if_false]
              rw [if_neg h1, if_pos h2]
            · rw [if_neg h2]
              cases Float32AbsMatch g mcond vtrue vfalse with
              | none => rfl
              | some isAbs => cases isAbs <;> simp [h1, h2]
      · rw [if_neg h32, if_neg h32]
        by_cases h64 : opcode g cond = .kFloat64LessThan
        · rw [if_pos h64, if_pos h64]
          unfold ReduceSelectFloat64AbsLast
          cases hm : BinopMatcher.mk2 g cond with
          | none => rfl
          | some mcond =>
            simp only [Option.bind_eq_bind, Option.some_bind]
            by_cases h1 : mcond.left = vtrue ∧ mcond.right = vfalse ∧ M.HasFloat64Min = true
            · rw [if_pos h1,
                Float64AbsMatch_false g mcond vtrue vfalse (Or.inl ⟨h1.1, h1.2.1⟩)]
              simp [h1]
            · rw [if_neg h1]
              by_cases h2 : mcond.left = vfalse ∧ mcond.right = vtrue ∧ M.HasFloat64Max = true
              · rw [if_pos h2,
                  Float64AbsMatch_false g mcond vtrue vfalse (Or.inr ⟨h2.1, h2.2.1⟩)]
                simp only [Option.some_bind, Bool.false_eq_true, if_false]
                rw [if_neg h1, if_pos h2]
              · rw [if_neg h2]
                cases Float64AbsMatch g mcond vtrue vfalse with
                | none => rfl
                | some isAbs => cases isAbs <;> simp [h1, h2]
        · rw [if_neg h64, if_neg h64]

theorem Width.Is0_opcode (w : Width) (g : Graph) (m : NodeId) (h : w.Is0 g m = true) :
    (g m).op ≠ w.Sub := by
  intro hs
  cases w
  · have := Float32Is0_opcode g m h
    simp [opcode, hs, Width.Sub, Operator.opcode] at this
  · have := Float64Is0_opcode g m h
    simp [opcode, hs, Width.Sub, Operator.opcode] at this

/-- C20: the absolute-value shape excludes the minimum conditions and the
maximum conditions on the same condition and arms, and the variants of
ReducePhi and ReduceSelect that test the absolute-value shape after the minimum
and maximum shapes return, on every graph, node and setting of the capability
flags, what ReducePhi and ReduceSelect return: the same reduction, the same
graph afterwards and the same revisit requests, or no return for both. -/
theorem abs_priority_immaterial :
    (∀ (w : Width) (g : Graph) (l r vtrue vfalse : NodeId),
      AbsShape w g l r vtrue vfalse = true →
        ¬ (l = vtrue ∧ r = vfalse) ∧ ¬ (l = vfalse ∧ r = vtrue)) ∧
    (∀ (M : MachineOperatorBuilder) (g : Graph) (n : NodeId),
      ReducePhiAbsLast M g n = ReducePhi M g n) ∧
    (∀ (M : MachineOperatorBuilder) (g : Graph) (n : NodeId),
      ReduceSelectAbsLast M g n = ReduceSelect M g n) := by
  refine ⟨?_, ReducePhiAbsLast_eq, ReduceSelectAbsLast_eq⟩
  intro w g l r vtrue vfalse h
  simp only [AbsShape, Bool.and_eq_true, decide_eq_true_eq] at h
  obtain ⟨⟨⟨h0, hr⟩, hs⟩, _⟩ := h
  have hne := Width.Is0_opcode w g l h0
  constructor
  · rintro ⟨h1, h2⟩
    rw [h1, ← hr, h2] at hne
    exact hne hs
  · rintro ⟨h1, _⟩
    rw [h1] at hne
    exact hne hs

/-- C20 on the Float32 absolute-value diamond, whose condition and arms have
the absolute-value shape. -/
theorem abs_priority_immaterial_witness :
    AbsShape .Float32 absDiamond 9 1 1 8 = true ∧
      ¬ ((9 : NodeId) = 1 ∧ (1 : NodeId) = 8) ∧ ¬ ((9 : NodeId) = 8 ∧ (1 : NodeId) = 1) :=
  ⟨by decide, abs_priority_immaterial.1 .Float32 absDiamond 9 1 1 8 (by decide)⟩

/-! ## ReducePhi: the collapse and the idiom of the diamond -/

theorem condIdiom_none_of_op (M : MachineOperatorBuilder) (g : Graph) (cond vt vf : NodeId)
    (h32 : (g cond).op ≠ .Float32LessThan) (h64 : (g cond).op ≠ .Float64LessThan) :
    condIdiom M g cond vt vf = none := by
  cases h : condIdiom M g cond vt vf with
  | none => rfl
  | some nd =>
    rcases condIdiom_some_op M g cond vt vf nd h with h1 | h1
    · exact absurd h1 h32
    · exact absurd h1 h64

/-- On a well-formed graph the idiom detection of a two-valued Phi computes
exactly the idiom of the diamond its merge closes. -/
theorem ReducePhiIdioms_exact (M : MachineOperatorBuilder) (g : Graph)
    (n a c merge p q : NodeId) (hwf : WellFormed g)
    (hin : (g n).inputs = [a, c, merge]) (hm : (g merge).inputs = [p, q]) :
    ReducePhiIdioms M g n merge
      = some ((phiIdiom M g n merge).map fun nd => rewritten g n nd [merge]) := by
  by_cases hp : opcode g p = .kIfTrue
  · have hpo := (opcode_eq_IfTrue g p).mp hp
    by_cases hq : opcode g q = .kIfFalse
    · have hqo := (opcode_eq_IfFalse g q).mp hq
      obtain ⟨b1, hb1, hbr⟩ := proj_inputs g p (hwf p) (Or.inl hp)
      obtain ⟨b2, hb2, _⟩ := proj_inputs g q (hwf q) (Or.inr hq)
      by_cases hbb : b1 = b2
      · subst hbb
        obtain ⟨cond, ctl, hcond⟩ := branch_inputs g b1 (hwf b1) hbr
        have h := ReducePhiIdioms_diamond M g n a c merge p q b1 cond [] [] [ctl] hin hm
          hpo hb1 hqo hb2 hcond (hwf cond) (fun _ => hwf c)
        have hd : phiIdiom M g n merge = condIdiom M g cond a c := by
          simp [phiIdiom, branchCond, hin, hm, hpo, hqo, hb1, hb2,
            (opcode_eq_Branch g b1).mp hbr, hcond]
        rw [hd]; exact h
      · have hd : phiIdiom M g n merge = none := by
          simp [phiIdiom, branchCond, hin, hm, hpo, hqo, hb1, hb2, hbb]
        rw [hd]
        simp only [ReducePhiIdioms, InputAt, hin, hm]
        simp [hp, hq, hb1, hb2, hbb]
    · have hqo : (g q).op ≠ .IfFalse := fun h => hq ((opcode_eq_IfFalse g q).mpr h)
      have hd : phiIdiom M g n merge = none := by
        simp [phiIdiom, hin, hm, hpo, hqo]
      rw [hd]
      simp only [ReducePhiIdioms, InputAt, hin, hm]
      simp [hp, hq]
  · have hpo : (g p).op ≠ .IfTrue := fun h => hp ((opcode_eq_IfTrue g p).mpr h)
    by_cases hq : opcode g q = .kIfTrue ∧ opcode g p = .kIfFalse
    · have hqo := (opcode_eq_IfTrue g q).mp hq.1
      have hpf := (opcode_eq_IfFalse g p).mp hq.2
      obtain ⟨b1, hb1, hbr⟩ := proj_inputs g q (hwf q) (Or.inl hq.1)
      obtain ⟨b2, hb2, _⟩ := proj_inputs g p (hwf p) (Or.inr hq.2)
      by_cases hbb : b1 = b2
      · subst hbb
        obtain ⟨cond, ctl, hcond⟩ := branch_inputs g b1 (hwf b1) hbr
        have h := ReducePhiIdioms_diamond_swapped M g n a c merge q p b1 cond [] [] [ctl] hin hm
          hqo hb1 hpf hb2 hcond (hwf cond) (fun _ => hwf a)
        have hd : phiIdiom M g n merge = condIdiom M g cond c a := by
          simp [phiIdiom, branchCond, hin, hm, hpf, hqo, hb1, hb2,
            (opcode_eq_Branch g b1).mp hbr, hcond]
        rw [hd]; exact h
      · have hd : phiIdiom M g n merge = none := by
          simp [phiIdiom, branchCond, hin, hm, hpf, hqo, hb1, hb2, hbb]
        rw [hd]
        simp only [ReducePhiIdioms, InputAt, hin, hm]
        simp [hp, hq, hb1, hb2, hbb]
    · have hd : phiIdiom M g n merge = none := by
        have hq2 : ¬ ((g q).op = .IfTrue ∧ (g p).op = .IfFalse) := fun h =>
          hq ⟨(opcode_eq_IfTrue g q).mpr h.1, (opcode_eq_IfFalse g p).mpr h.2⟩
        simp [phiIdiom, hin, hm, hpo, hq2]
      rw [hd]
      simp only [ReducePhiIdioms, InputAt, hin, hm]
      simp only [not_and] at hq
      simp [hp]
      intro h1 h2
      exact absurd h2 (hq h1)

/-- Where idiom detection is not applicable there is no idiom of the
diamond. -/
theorem phiIdiom_none_of_not_applicable (M : MachineOperatorBuilder) (g : Graph)
    (n merge : NodeId) (h : idiomApplicable g n merge = false) :
    phiIdiom M g n merge = none := by
  unfold phiIdiom
  split
  · rename_i a c m2 p q hin hm
    have hlen : (g n).inputs.length = 3 := by simp [hin]
    simp only [idiomApplicable, hlen, decide_True, Bool.true_and, diamondCond, hm] at h
    have key : ∀ t f vt vf, (match branchCond g t f with
        | some cond =>
          decide ((g cond).op = .Float32LessThan) || decide ((g cond).op = .Float64LessThan)
        | none => false) = false →
        ((branchCond g t f).bind fun cond => condIdiom M g cond vt vf) = none := by
      intro t f vt vf hk
      cases hb : branchCond g t f with
      | none => rfl
      | some cond =>
        rw [hb] at hk
        simp only [Bool.or_eq_false_iff, decide_eq_false_iff_not] at hk
        exact condIdiom_none_of_op M g cond vt vf hk.1 hk.2
    split_ifs at h ⊢ with h1 h2
    · exact key p q a c h
    · exact key q p c a h
    · rfl
  · rfl

/-- C3, amended: a Phi with operands v0 :: vs ++ [merge] on a well-formed
graph, whose merge has as many operands as the Phi has value operands and
whose operands vs are each the node itself or v0, always returns and issues
exactly one revisit request, for merge.  It returns Replace(v0) with the graph
left as it is, except when it has exactly two value operands, its merge closes
a diamond of one Branch whose condition is a LessThan, and an idiom check
matches on that condition and the value operands aligned with the projections:
then, and only then, it returns Changed(n) with n rewritten to that idiom.  In
particular it returns Replace(v0) whenever the Phi has not exactly two value
operands and whenever idiom detection is not applicable. -/
theorem ReducePhi_collapse (M : MachineOperatorBuilder) (g : Graph) (n v0 merge : NodeId)
    (vs : List NodeId) (hwf : WellFormed g)
    (hin : (g n).inputs = v0 :: vs ++ [merge])
    (hmerge : (g merge).inputs.length = (v0 :: vs).length)
    (hall : ∀ v ∈ vs, v = n ∨ v = v0) :
    ReducePhi M g n = some
      (match phiIdiom M g n merge with
       | some nd => ⟨.Changed n, g.set n nd, [merge]⟩
       | none => ⟨.Replace v0, g, [merge]⟩) ∧
    (vs.length ≠ 1 → ReducePhi M g n = some ⟨.Replace v0, g, [merge]⟩) ∧
    (idiomApplicable g n merge = false →
      ReducePhi M g n = some ⟨.Replace v0, g, [merge]⟩) := by
  have htrue : (vs.all fun e => e == n || e == v0) = true := by
    rw [List.all_eq_true]
    intro e he
    rcases hall e he with h | h <;> simp [h]
  have heq := ReducePhi_eq M g n v0 merge vs hin
  rw [htrue] at heq
  have main : ReducePhi M g n = some
      (match phiIdiom M g n merge with
       | some nd => ⟨.Changed n, g.set n nd, [merge]⟩
       | none => ⟨.Replace v0, g, [merge]⟩) := by
    by_cases hk : vs.length = 1
    · obtain ⟨c, rfl⟩ : ∃ c, vs = [c] := by
        match vs, hk with
        | [c], _ => exact ⟨c, rfl⟩
      obtain ⟨p, q, hpq⟩ : ∃ p q, (g merge).inputs = [p, q] := by
        match hi : (g merge).inputs, hmerge with
        | [p, q], _ => exact ⟨p, q, rfl⟩
      rw [if_pos hk, ReducePhiIdioms_exact M g n v0 c merge p q hwf (by simpa using hin) hpq]
        at heq
      rw [heq]
      cases phiIdiom M g n merge <;> simp [rewritten]
    · rw [if_neg hk] at heq
      have hnone : phiIdiom M g n merge = none := by
        unfold phiIdiom
        split
        · rename_i a c m2 p q hin2 hm2
          rw [hin] at hin2
          exact absurd (by simpa using congrArg List.length hin2) hk
        · rfl
      rw [hnone, heq]
      rfl
  refine ⟨main, fun hk => ?_, fun hna => ?_⟩
  · rw [heq, if_neg hk]; rfl
  · rw [main, phiIdiom_none_of_not_applicable M g n merge hna]

/-- C3, amended, on a diamond whose condition is no comparison (Replace) and
on the diamond of Float32LessThan(x, x) with every capability (Changed). -/
theorem ReducePhi_collapse_witness :
    WellFormed plainDiamond ∧ (plainDiamond 0).inputs = 1 :: [1] ++ [2] ∧
      (plainDiamond 2).inputs.length = (1 :: [1]).length ∧
      (∀ v ∈ [1], v = 0 ∨ v = 1) ∧
      phiIdiom noCaps plainDiamond 0 2 = none ∧
      ReducePhi noCaps plainDiamond 0 = some ⟨.Replace 1, plainDiamond, [2]⟩ ∧
      phiIdiom allCaps sameArmsDiamond 0 2 = some ⟨.Float32Min, [1, 1]⟩ ∧
      ReducePhi allCaps sameArmsDiamond 0 = some
        (match phiIdiom allCaps sameArmsDiamond 0 2 with
         | some nd => ⟨.Changed 0, sameArmsDiamond.set 0 nd, [2]⟩
         | none => ⟨.Replace 1, sameArmsDiamond, [2]⟩) :=
  ⟨wellFormed_ofList _ (by decide), rfl, rfl, by decide, by decide,
    (ReducePhi_collapse noCaps plainDiamond 0 1 2 [1] (wellFormed_ofList _ (by decide)) rfl rfl
      (by decide)).2.2 (by decide),
    by decide,
    (ReducePhi_collapse allCaps sameArmsDiamond 0 1 2 [1] (wellFormed_ofList _ (by decide)) rfl
      rfl (by decide)).1⟩

end CommonOperatorReducer
